import Mathlib

/-!
Verification development for the Amulet map editor GUI helper modules.

Shallow embeddings of:
  * `amulet_map_editor/programs/edit/key_config.py`
    (`serialise_key_event`, the keybind presets),
  * `amulet_map_editor/programs/edit/plugins/tools/select.py`
    (the movement buttons of the select tool),
  * `amulet_map_editor/programs/edit/api/ui/goto.py`
    (`CoordRegex` and the paste handler of the `GoTo` dialog),
  * `amulet_map_editor/api/wx/ui/nbt_editor.py`
    (the `ParsedNBT` tree model, `parse_nbt`, `build_nbt`, and the
    editing operations of `NBTEditor`).

Python integers are embedded as `Int`/`Nat`, Python strings as `String`,
Python lists as `List`, mutable object graphs as explicit stores indexed
by allocation order.
-/

namespace Amulet

/-! ### key_config.py: wx key-code constants

Numeric values of the wx constants used by the module. -/

def WXK_SHIFT : Nat := 306
def WXK_ALT : Nat := 307
def WXK_CONTROL : Nat := 308
def WXK_SPACE : Nat := 32
def WXK_PAGEUP : Nat := 366
def WXK_PAGEDOWN : Nat := 367

/-- A serialised key is either a raw key code (Python `int`) or a string
such as `"W"`, `"SPACE"`, `"ML"` (Python `str`); this is the `KeyType`
union of key_config.py. -/
inductive KeyVal where
  | code (n : Nat)
  | str (s : String)
deriving DecidableEq, Repr

/-- The `key_string_map` dictionary of key_config.py. -/
def key_string_map (k : Nat) : Option String :=
  if k = WXK_SHIFT then some "SHIFT"
  else if k = WXK_ALT then some "ALT"
  else if k = WXK_SPACE then some "SPACE"
  else if k = WXK_PAGEUP then some "PAGE_UP"
  else if k = WXK_PAGEDOWN then some "PAGE_DOWN"
  else none

/-- A `wx.KeyEvent`, restricted to the accessors `serialise_key_event`
reads: `GetUnicodeKey`, `GetKeyCode`, `ControlDown`, `ShiftDown`,
`AltDown`. -/
structure KeyEvt where
  unicodeKey : Nat
  keyCode : Nat
  ctrlDown : Bool
  shiftDown : Bool
  altDown : Bool
deriving DecidableEq, Repr

/-- The event type of a `wx.MouseEvent` as classified by
`serialise_key_event`: the six button press/release types appearing in
`_mouse_events`, the wheel type of `wx.EVT_MOUSEWHEEL`, and `other` for
every remaining mouse event type (motion, enter, leave, ...). -/
inductive MouseKind where
  | leftDown | leftUp | middleDown | middleUp | rightDown | rightUp
  | wheel
  | other
deriving DecidableEq, Repr

/-- A `wx.MouseEvent`, restricted to the accessors `serialise_key_event`
reads: `GetEventType` and `GetWheelRotation`. -/
structure MouseEvt where
  kind : MouseKind
  wheelRot : Int
deriving DecidableEq, Repr

/-- The `Union[wx.KeyEvent, wx.MouseEvent]` argument of
`serialise_key_event`. -/
inductive WxEvt where
  | key (e : KeyEvt)
  | mouse (e : MouseEvt)
deriving DecidableEq, Repr

/-- The `_mouse_events` dictionary of key_config.py: maps the six
left/middle/right press/release event types to `"ML"`/`"MM"`/`"MR"`. -/
def mouse_events (k : MouseKind) : Option String :=
  match k with
  | .leftDown => some "ML"
  | .leftUp => some "ML"
  | .middleDown => some "MM"
  | .middleUp => some "MM"
  | .rightDown => some "MR"
  | .rightUp => some "MR"
  | .wheel => none
  | .other => none

/-- `key = evt.GetUnicodeKey() or evt.GetKeyCode()`: Python `or` yields
the right operand when the left one is zero. -/
def effKey (e : KeyEvt) : Nat :=
  if e.unicodeKey ≠ 0 then e.unicodeKey else e.keyCode

/-- The `modifier` list accumulated by the keyboard branch of
`serialise_key_event`: `"CTRL"` is appended when Control is held, then
`"SHIFT"` and `"ALT"` when additionally held. -/
def modList (c s a : Bool) : List String :=
  if c then
    "CTRL" :: ((if s then ["SHIFT"] else []) ++ (if a then ["ALT"] else []))
  else []

/-- The keyboard branch of `serialise_key_event`. -/
def serialise_key_branch (e : KeyEvt) : Option (List String × KeyVal) :=
  let key := effKey e
  if key = WXK_CONTROL then none
  else if e.ctrlDown ∧ (key = WXK_SHIFT ∨ key = WXK_ALT) then none
  else
    let modifier : List String := modList e.ctrlDown e.shiftDown e.altDown
    let key2 : KeyVal :=
      if 33 ≤ key ∧ key ≤ 126 then
        .str (String.mk [(Char.ofNat key).toUpper])
      else
        match key_string_map key with
        | some s => .str s
        | none => .code key
    some (modifier, key2)

/-- The mouse branch of `serialise_key_event`: wheel events are checked
against `wx.EVT_MOUSEWHEEL` first, then the event type is looked up in
`_mouse_events`; a fall-through returns Python `None`. -/
def serialise_mouse_branch (e : MouseEvt) : Option (List String × KeyVal) :=
  if e.kind = .wheel then
    if e.wheelRot < 0 then some ([], .str "MWSD")
    else if 0 < e.wheelRot then some ([], .str "MWSU")
    else none
  else
    match mouse_events e.kind with
    | some s => some ([], .str s)
    | none => none

/-- `serialise_key_event` of key_config.py. -/
def serialise_key_event : WxEvt → Option (List String × KeyVal)
  | .key e => serialise_key_branch e
  | .mouse e => serialise_mouse_branch e

/-! ### key_config.py: the keybind presets -/

/-- A `KeybindDict`: an insertion-ordered dictionary from action names to
serialised keys. -/
def KeybindMap : Type := List (String × (List String × KeyVal))

instance : DecidableEq KeybindMap := by
  unfold KeybindMap
  exact inferInstance

/-- The `"right"` preset of `_presets`. -/
def presetRight : KeybindMap :=
  [("up", ([], .str "SPACE")),
   ("down", ([], .str "SHIFT")),
   ("forwards", ([], .str "W")),
   ("backwards", ([], .str "S")),
   ("left", ([], .str "A")),
   ("right", ([], .str "D")),
   ("box click", ([], .str "ML")),
   ("toggle selection mode", ([], .str "MR")),
   ("toggle mouse lock", ([], .str "MM")),
   ("speed+", ([], .str "MWSU")),
   ("speed-", ([], .str "MWSD"))]

/-- The `"right_laptop"` preset of `_presets`. -/
def presetRightLaptop : KeybindMap :=
  [("up", ([], .str "SPACE")),
   ("down", ([], .str "SHIFT")),
   ("forwards", ([], .str "W")),
   ("backwards", ([], .str "S")),
   ("left", ([], .str "A")),
   ("right", ([], .str "D")),
   ("box click", ([], .str "ML")),
   ("toggle selection mode", ([], .str "MR")),
   ("toggle mouse lock", ([], .str "F")),
   ("speed+", ([], .str ".")),
   ("speed-", ([], .str ","))]

/-- The `"left"` preset of `_presets`. -/
def presetLeft : KeybindMap :=
  [("up", ([], .str "SPACE")),
   ("down", ([], .str ";")),
   ("forwards", ([], .str "I")),
   ("backwards", ([], .str "K")),
   ("left", ([], .str "J")),
   ("right", ([], .str "L")),
   ("box click", ([], .str "ML")),
   ("toggle selection mode", ([], .str "MR")),
   ("toggle mouse lock", ([], .str "MM")),
   ("speed+", ([], .str "MWSU")),
   ("speed-", ([], .str "MWSD"))]

/-- The `"left_laptop"` preset of `_presets`. -/
def presetLeftLaptop : KeybindMap :=
  [("up", ([], .str "SPACE")),
   ("down", ([], .str ";")),
   ("forwards", ([], .str "I")),
   ("backwards", ([], .str "K")),
   ("left", ([], .str "J")),
   ("right", ([], .str "L")),
   ("box click", ([], .str "ML")),
   ("toggle selection mode", ([], .str "MR")),
   ("toggle mouse lock", ([], .str "H")),
   ("speed+", ([], .str ".")),
   ("speed-", ([], .str ","))]

/-- The `_presets` dictionary. -/
def presets : List (String × KeybindMap) :=
  [("right", presetRight),
   ("right_laptop", presetRightLaptop),
   ("left", presetLeft),
   ("left_laptop", presetLeftLaptop)]

/-- `DefaultKeys = _presets["right"]`. -/
def DefaultKeys : KeybindMap :=
  ((presets.lookup "right").getD [])

/-! ### select.py: the movement buttons -/

/-- A block position or movement offset `(x, y, z)`. -/
abbrev V3 : Type := Int × Int × Int

/-- Componentwise sum of two coordinate triples. -/
def addV (a b : V3) : V3 :=
  (a.1 + b.1, a.2.1 + b.2.1, a.2.2 + b.2.2)

/-- Componentwise difference of two coordinate triples (the box extent
`p2 - p1` is `subV p2 p1`). -/
def subV (a b : V3) : V3 :=
  (a.1 - b.1, a.2.1 - b.2.1, a.2.2 - b.2.2)

/-- The `active_block_positions` of the selection behaviour: the two
active box corners. -/
structure SelState where
  point1 : V3
  point2 : V3
deriving DecidableEq, Repr

/-- `Point1MoveButton._move`: destructures
`(x, y, z), point2 = self._selection.active_block_positions` and writes
back `(x + ox, y + oy, z + oz), point2`. -/
def point1Move (offset : V3) (s : SelState) : SelState :=
  ⟨(s.point1.1 + offset.1, s.point1.2.1 + offset.2.1,
    s.point1.2.2 + offset.2.2), s.point2⟩

/-- `Point2MoveButton._move`: writes back
`point1, (x + ox, y + oy, z + oz)`. -/
def point2Move (offset : V3) (s : SelState) : SelState :=
  ⟨s.point1, (s.point2.1 + offset.1, s.point2.2.1 + offset.2.1,
    s.point2.2.2 + offset.2.2)⟩

/-- `SelectionMoveButton._move`: adds the offset to both corners. -/
def selectionMove (offset : V3) (s : SelState) : SelState :=
  ⟨(s.point1.1 + offset.1, s.point1.2.1 + offset.2.1,
    s.point1.2.2 + offset.2.2),
   (s.point2.1 + offset.1, s.point2.2.1 + offset.2.1,
    s.point2.2.2 + offset.2.2)⟩

/-- Floor of a rational number, computably (`Int.fdiv` is floor
division). -/
def floorQ (q : ℚ) : ℤ :=
  Int.fdiv q.num (q.den : ℤ)

/-- `numpy.round`: round half to even (banker's rounding). -/
def roundHalfEven (q : ℚ) : ℤ :=
  let f := floorQ q
  let r : ℚ := q - (f : ℚ)
  if r < 1/2 then f
  else if (1 : ℚ)/2 < r then f + 1
  else if f % 2 = 0 then f else f + 1

/-- Modelled from the spec: `rotation_matrix_xy` lives in
`amulet_map_editor/api/opengl/matrix.py`, which is not among the sources
here.  Following the spec ("rotating a movement vector by camera yaw"),
`rotation_matrix_xy 0 θ` is the 4x4 rotation about the vertical (y)
axis by angle θ, with upper 3x3 block
`[[cos θ, 0, sin θ], [0, 1, 0], [-sin θ, 0, cos θ]]`.
`MovementButton._rotate` multiplies this matrix (at θ the negated,
radian-converted camera yaw) with `(x, y, z, 0)` and rounds each
component (`numpy.round` then `astype(int)`).  The matrix is represented
here by the cosine `c` and sine `s` of its angle, so that the function
stays exact (rational) arithmetic. -/
def rotateOffset (c s : ℚ) (v : V3) : V3 :=
  (roundHalfEven (c * (v.1 : ℚ) + s * (v.2.2 : ℚ)),
   roundHalfEven ((v.2.1 : ℚ)),
   roundHalfEven (-s * (v.1 : ℚ) + c * (v.2.2 : ℚ)))

/-- Exact cosine of `k` quarter turns (`k * 90` degrees). -/
def cos90 (k : Int) : Int :=
  match (k % 4).toNat with
  | 0 => 1
  | 1 => 0
  | 2 => -1
  | _ => 0

/-- Exact sine of `k` quarter turns (`k * 90` degrees). -/
def sin90 (k : Int) : Int :=
  match (k % 4).toNat with
  | 0 => 0
  | 1 => 1
  | 2 => 0
  | _ => -1

/-- `MovementButton._rotate` when the camera yaw is `90 * k` degrees:
the applied angle is `-(90 * k)` degrees, whose cosine is `cos90 k` and
whose sine is `-(sin90 k)`. -/
def rotateAtQuarter (k : Int) (v : V3) : V3 :=
  rotateOffset ((cos90 k : Int) : ℚ) (((-(sin90 k) : Int) : ℚ)) v

/-- The exact image of the horizontal components `(x, z)` under the
rotation about the vertical axis by `-(90 * k)` degrees, in integer
arithmetic. -/
def quarterImage (k : Int) (x z : Int) : Int × Int :=
  (cos90 k * x - sin90 k * z, sin90 k * x + cos90 k * z)

/-! ### goto.py: `CoordRegex` and the paste handler -/

/-- Python `\s` in a `str` pattern (`CoordRegex` is compiled without
`re.ASCII`, so `\s` matches Unicode whitespace): the code points
U+0009..U+000D, U+001C..U+0020, U+0085, U+00A0, U+1680,
U+2000..U+200A, U+2028, U+2029, U+202F, U+205F and U+3000. -/
def isWsChar (c : Char) : Bool :=
  (9 ≤ c.toNat && c.toNat ≤ 13) || (28 ≤ c.toNat && c.toNat ≤ 32) ||
  c.toNat = 133 || c.toNat = 160 || c.toNat = 5760 ||
  (8192 ≤ c.toNat && c.toNat ≤ 8202) || c.toNat = 8232 ||
  c.toNat = 8233 || c.toNat = 8239 || c.toNat = 8287 || c.toNat = 12288

/-- The character class `[0-9]` (code points 48..57). -/
def isDigitChar (c : Char) : Bool :=
  48 ≤ c.toNat && c.toNat ≤ 57

/-- The trailing part `\.?[0-9]*` of a coordinate group: the optional
(greedy) dot, then greedy digits; returns the consumed characters and
the rest. -/
def parseNumTail (r1 : List Char) : List Char × List Char :=
  match r1 with
  | c :: r2 =>
    if c = '.' then ('.' :: r2.takeWhile isDigitChar, r2.dropWhile isDigitChar)
    else (r1.takeWhile isDigitChar, r1.dropWhile isDigitChar)
  | [] => ([], [])

/-- The part of a coordinate group after the optional minus sign:
`[0-9]+` (greedy, at least one) then `\.?[0-9]*`. -/
def parseNumFrom (sign cs1 : List Char) : Option (List Char × List Char) :=
  if cs1.takeWhile isDigitChar = [] then none
  else
    some (sign ++ cs1.takeWhile isDigitChar ++
            (parseNumTail (cs1.dropWhile isDigitChar)).1,
          (parseNumTail (cs1.dropWhile isDigitChar)).2)

/-- The coordinate group `-?[0-9]+\.?[0-9]*` of `CoordRegex`, matched
greedily at the front of `cs`; returns the consumed group and the rest.
Greedy matching is equivalent to the regex's backtracking semantics here
because the characters that may follow a coordinate in the pattern (a
comma, whitespace, or the end of the string) can never extend a match of
this group, which the equivalence theorem below makes precise. -/
def parseNum (cs : List Char) : Option (List Char × List Char) :=
  match cs with
  | c :: rest =>
    if c = '-' then parseNumFrom ['-'] rest else parseNumFrom [] cs
  | [] => parseNumFrom [] []

/-- The separator group `((?:,\s*)|(?:\s+))` of `CoordRegex`, matched
greedily at the front of `cs`.  The alternation is deterministic: the
first branch applies exactly when the next character is a comma. -/
def parseSep (cs : List Char) : Option (List Char × List Char) :=
  match cs with
  | c :: rest =>
    if c = ',' then
      some (',' :: rest.takeWhile isWsChar, rest.dropWhile isWsChar)
    else if cs.takeWhile isWsChar = [] then none
    else some (cs.takeWhile isWsChar, cs.dropWhile isWsChar)
  | [] => none

/-- The optional trailing comma `,?` of `CoordRegex`. -/
def dropComma (l : List Char) : List Char :=
  match l with
  | c :: rest => if c = ',' then rest else l
  | [] => l

/-- `CoordRegex.fullmatch`: returns the three captured coordinate groups
`x`, `y`, `z` when the whole string matches, and `none` otherwise. -/
def coordMatch (str : String) : Option (String × String × String) :=
  match parseNum (str.data.dropWhile isWsChar) with
  | none => none
  | some (n1, r1) =>
    match parseSep r1 with
    | none => none
    | some (_, r2) =>
      match parseNum r2 with
      | none => none
      | some (n2, r3) =>
        match parseSep r3 with
        | none => none
        | some (_, r4) =>
          match parseNum r4 with
          | none => none
          | some (n3, r5) =>
            if (dropComma r5).dropWhile isWsChar = [] then
              some (n1.asString, n2.asString, n3.asString)
            else none

/-- A run of whitespace characters. -/
def IsWsStr (l : List Char) : Prop :=
  ∀ c ∈ l, isWsChar c = true

/-- Declarative reading of the spec: a decimal coordinate is an optional
minus sign, one or more digits, and an optional fractional part (a dot
followed by zero or more digits, exactly as `-?[0-9]+\.?[0-9]*`
allows). -/
def IsNumStr (l : List Char) : Prop :=
  ∃ sign intPart frac,
    l = sign ++ intPart ++ frac ∧
    (sign = [] ∨ sign = ['-']) ∧
    intPart ≠ [] ∧ (∀ c ∈ intPart, isDigitChar c = true) ∧
    (frac = [] ∨ ∃ ds, frac = '.' :: ds ∧ ∀ c ∈ ds, isDigitChar c = true)

/-- Declarative reading of the spec: a separator is either a comma with
optional following whitespace, or (nonempty) whitespace. -/
def IsSepStr (l : List Char) : Prop :=
  (∃ w, l = ',' :: w ∧ IsWsStr w) ∨ (l ≠ [] ∧ IsWsStr l)

/-- Declarative reading of the spec sentence describing `CoordRegex`:
optional leading whitespace, three decimal coordinates separated by
comma-with-optional-whitespace or whitespace, an optional trailing
comma, and optional trailing whitespace. -/
def CoordSpec (str : String) : Prop :=
  ∃ w0 n1 s1 n2 s2 n3 tc w1,
    str.data = w0 ++ n1 ++ s1 ++ n2 ++ s2 ++ n3 ++ tc ++ w1 ∧
    IsWsStr w0 ∧ IsNumStr n1 ∧ IsSepStr s1 ∧ IsNumStr n2 ∧ IsSepStr s2 ∧
    IsNumStr n3 ∧ (tc = [] ∨ tc = [',']) ∧ IsWsStr w1

/-- The three coordinate text fields of the `GoTo` dialog.  A
`wx.SpinCtrlDouble` stores `float(text)`; the decimal text passed to
`SetValue` is modelled exactly. -/
structure GoToState where
  x : String
  y : String
  z : String
deriving DecidableEq, Repr

/-- The Ctrl+V branch of `GoTo._on_text`, given the clipboard text: when
`CoordRegex.fullmatch` succeeds the three fields are set from the three
captured groups, otherwise the event is skipped and the handler leaves
the fields alone. -/
def onPasteClipboard (text : String) (st : GoToState) : GoToState :=
  match coordMatch text with
  | some (a, b, c) => ⟨a, b, c⟩
  | none => st

/-! ### nbt_editor.py: the NBT tree model

`amulet_nbt` tag classes: `TAG_Compound` is a `MutableMapping`,
`TAG_List` is a `MutableSequence`; every other tag class (numeric tags,
`TAG_String`, and the numpy-backed array tags) is neither, so
`parse_nbt` treats it as a plain value. -/

/-- The type object of a non-container tag. -/
inductive VTag where
  | byte | short | int | long | flt | dbl | str
  | byteArray | intArray | longArray
deriving DecidableEq, Repr

/-- A Python tag type object (`type(tag)`). -/
inductive NTag where
  | v (t : VTag)
  | compound
  | list
deriving DecidableEq, Repr

/-- The `.value` payload of a non-container tag (numbers, strings and
array contents, embedded as exact values). -/
inductive Prim where
  | int (i : Int)
  | str (s : String)
  | arr (a : List Int)
deriving DecidableEq, Repr

mutual
/-- An already-parsed NBT document of the third-party library: a value
tag, a compound (insertion-ordered mapping), or a list. -/
inductive NBT where
  | value (t : VTag) (pv : Prim)
  | compound (entries : NEntries)
  | list (items : NItems)

/-- The ordered key/value entries of a `TAG_Compound`. -/
inductive NEntries where
  | nil
  | cons (key : String) (tag : NBT) (rest : NEntries)

/-- The items of a `TAG_List`. -/
inductive NItems where
  | nil
  | cons (tag : NBT) (rest : NItems)
end

mutual
/-- A node of the editor tree: `ParsedNBTValue` (name, value, type) or
`ParsedNBTContainer` (name, type, children).  Parent references are
modelled separately by the store-based embedding below. -/
inductive Parsed where
  | value (nm : String) (pv : Prim) (t : VTag)
  | cont (nm : String) (t : NTag) (children : PList)

/-- The `_children` list of a `ParsedNBTContainer`. -/
inductive PList where
  | nil
  | cons (head : Parsed) (rest : PList)
end

/-- The `name` property of a `ParsedNBT`. -/
def Parsed.nameOf : Parsed → String
  | .value nm _ _ => nm
  | .cont nm _ _ => nm

mutual
/-- `parse_nbt(_nbt, parent)` restricted to the entries of a mapping,
returning the children added to `parent` in order.  `none` models the
`AttributeError` raised when `parse_nbt` is applied to an object without
an `.items()` method (a `TAG_List` nested directly inside a
`TAG_List`). -/
def parseEntries : NEntries → Option PList
  | .nil => some .nil
  | .cons k v rest =>
    match v with
    | .compound es =>
      match parseEntries es, parseEntries rest with
      | some kids, some tail => some (.cons (.cont k .compound kids) tail)
      | _, _ => none
    | .list its =>
      match parseItems its, parseEntries rest with
      | some kids, some tail => some (.cons (.cont k .list kids) tail)
      | _, _ => none
    | .value t pv =>
      match parseEntries rest with
      | some tail => some (.cons (.value k pv t) tail)
      | none => none

/-- The inner loop of `parse_nbt` over the items of a sequence value: a
mapping child becomes a nameless container parsed recursively, a
sequence child is passed to `parse_nbt` itself, which immediately calls
`child.items()` and raises `AttributeError` (modelled by `none`), and
any other child becomes a nameless `ParsedNBTValue`. -/
def parseItems : NItems → Option PList
  | .nil => some .nil
  | .cons c rest =>
    match c with
    | .compound es =>
      match parseEntries es, parseItems rest with
      | some kids, some tail => some (.cons (.cont "" .compound kids) tail)
      | _, _ => none
    | .list _ => none
    | .value t pv =>
      match parseItems rest with
      | some tail => some (.cons (.value "" pv t) tail)
      | none => none
end

mutual
/-- `ParsedNBT.build_nbt`: a value node rebuilds `type(value)` from its
stored payload; a container constructs `self._type()` and either inserts
children by name (`TAG_Compound`) or appends them (every other
container type). -/
def buildNbt : Parsed → NBT
  | .value _ pv t => .value t pv
  | .cont _ t kids =>
    match t with
    | .compound => .compound (buildEntries kids)
    | _ => .list (buildItems kids)

/-- The compound branch of `ParsedNBTContainer.build_nbt`. -/
def buildEntries : PList → NEntries
  | .nil => .nil
  | .cons c rest => .cons c.nameOf (buildNbt c) (buildEntries rest)

/-- The sequence branch of `ParsedNBTContainer.build_nbt`. -/
def buildItems : PList → NItems
  | .nil => .nil
  | .cons c rest => .cons (buildNbt c) (buildItems rest)
end

/-! ### nbt_editor.py: the mutable object graph of parsed nodes

The `ParsedNBT` objects form a mutable graph: every node stores a
`_parent` reference while every container stores a `_children` list.
Nodes are embedded as entries of a store (a list indexed by allocation
order); object references become store indices. -/

/-- One `ParsedNBT` object: a `ParsedNBTValue` when `isCont = false`, a
`ParsedNBTContainer` when `isCont = true`, with its `_parent`, `_name`,
`_type`, `_value` and `_children` slots. -/
structure PNode where
  parent : Option Nat
  nm : String
  ttype : NTag
  isCont : Bool
  val? : Option Prim
  children : List Nat
deriving Repr, DecidableEq

instance : Inhabited PNode :=
  ⟨⟨none, "", .compound, false, none, []⟩⟩

/-- The object store: node `i` is the object allocated `i`-th. -/
abbrev Store : Type := List PNode

/-- Dereference a store index (out-of-range indices give an inert
default node with no children). -/
def nodeAt (st : Store) (i : Nat) : PNode :=
  st.getD i default

/-- Overwrite the `_children` list of node `p`. -/
def updChildren (st : Store) (p : Nat) (f : List Nat → List Nat) : Store :=
  st.set p { nodeAt st p with children := f (nodeAt st p).children }

/-- `ParsedNBTContainer.add_child`: append a child reference. -/
def addChildSt (st : Store) (p c : Nat) : Store :=
  updChildren st p (fun l => l ++ [c])

/-- The root container built by `NBTEditor.__init__`:
`ParsedNBTContainer(None, "", TAG_Compound)`. -/
def rootNode : PNode :=
  ⟨none, "", .compound, true, none, []⟩

mutual
/-- `parse_nbt` over the entries of a mapping, on the object store:
each entry allocates a node whose `_parent` is `p`, fills its subtree,
and only then is appended to the children of `p`. -/
def storeParseEntries : NEntries → Nat → Store → Option Store
  | .nil, _, st => some st
  | .cons k v rest, p, st =>
    match v with
    | .compound es =>
      let nid := st.length
      let st1 := st ++ [⟨some p, k, .compound, true, none, []⟩]
      match storeParseEntries es nid st1 with
      | some st2 => storeParseEntries rest p (addChildSt st2 p nid)
      | none => none
    | .list its =>
      let nid := st.length
      let st1 := st ++ [⟨some p, k, .list, true, none, []⟩]
      match storeParseItems its nid st1 with
      | some st2 => storeParseEntries rest p (addChildSt st2 p nid)
      | none => none
    | .value t pv =>
      let nid := st.length
      let st1 := st ++ [⟨some p, k, .v t, false, some pv, []⟩]
      storeParseEntries rest p (addChildSt st1 p nid)

/-- The item loop of `parse_nbt` over a sequence value, on the object
store; a sequence nested directly inside a sequence fails (the inner
`parse_nbt` call has no `.items()` to iterate). -/
def storeParseItems : NItems → Nat → Store → Option Store
  | .nil, _, st => some st
  | .cons c rest, p, st =>
    match c with
    | .compound es =>
      let nid := st.length
      let st1 := st ++ [⟨some p, "", .compound, true, none, []⟩]
      match storeParseEntries es nid st1 with
      | some st2 => storeParseItems rest p (addChildSt st2 p nid)
      | none => none
    | .list _ => none
    | .value t pv =>
      let nid := st.length
      let st1 := st ++ [⟨some p, "", .v t, false, some pv, []⟩]
      storeParseItems rest p (addChildSt st1 p nid)
end

/-- The branch of `NewTagDialog._save` choosing the node class:
`TAG_List` and `TAG_Compound` give a `ParsedNBTContainer`, every other
tag type a `ParsedNBTValue`. -/
def isContType : NTag → Bool
  | .compound => true
  | .list => true
  | .v _ => false

/-- The node handed to `_add_tag`'s `save_callback` after
`new_tag.parent = parent_tag` has been assigned. -/
def newTagNode (p : Nat) (nm : String) (v : Prim) (t : NTag) : PNode :=
  if isContType t then ⟨some p, nm, t, true, none, []⟩
  else ⟨some p, nm, t, false, some v, []⟩

/-- `NBTEditor._add_tag`: allocate the new tag with its parent
reference, then `parent_tag.add_child(new_tag)`. -/
def addTagOp (st : Store) (p : Nat) (nm : String) (v : Prim) (t : NTag) :
    Store :=
  addChildSt (st ++ [newTagNode p nm v t]) p st.length

/-- `NBTEditor._delete_tag` via `ParsedNBT.remove`:
`self._parent.remove_child(self)`, where Python `list.remove` drops the
first occurrence; with no parent the container variant does nothing. -/
def removeOp (st : Store) (i : Nat) : Store :=
  match (nodeAt st i).parent with
  | some p => updChildren st p (fun l => l.erase i)
  | none => st

/-- `NBTEditor._edit_tag` via `ParsedNBT.update`: a value node updates
name and value, a container only its name. -/
def editOp (st : Store) (i : Nat) (nm : String) (v : Prim) : Store :=
  st.set i
    (if (nodeAt st i).isCont then { nodeAt st i with nm := nm }
     else { nodeAt st i with nm := nm, val? := some v })

/-- One editing interaction of the `NBTEditor` panel. -/
inductive EditOp where
  | add (p : Nat) (nm : String) (v : Prim) (t : NTag)
  | del (i : Nat)
  | edit (i : Nat) (nm : String) (v : Prim)

/-- Dispatch one editing interaction. -/
def applyOp (st : Store) : EditOp → Store
  | .add p nm v t => addTagOp st p nm v t
  | .del i => removeOp st i
  | .edit i nm v => editOp st i nm v

/-- The caller's document next to the editor's internal state. -/
structure EditorWorld where
  doc : NBT
  store : Store

/-- `deepcopy(nbt_data)`: denotes the same tree value; the fresh object
graph it creates is reflected in the store being populated with newly
allocated nodes only. -/
def deepcopyNBT (d : NBT) : NBT := d

/-- `NBTEditor.__init__`: build the root container and run
`parse_nbt(deepcopy(nbt_data), self._parent)`. -/
def initEditor (d : NBT) : Option EditorWorld :=
  match deepcopyNBT d with
  | .compound es =>
    match storeParseEntries es 0 [rootNode] with
    | some st => some ⟨d, st⟩
    | none => none
  | _ => none

/-- A sequence of editing interactions on the panel. -/
def applyOps (w : EditorWorld) : List EditOp → EditorWorld
  | [] => w
  | op :: rest => applyOps ⟨w.doc, applyOp w.store op⟩ rest

mutual
/-- `build_nbt` on the object store, fuel-bounded (the graphs built by
the editor are trees, where depth is below the store size). -/
def buildStoreNbt (st : Store) : Nat → Nat → Option NBT
  | 0, _ => none
  | fuel + 1, i =>
    let nd := nodeAt st i
    if nd.isCont then
      match nd.ttype with
      | .compound =>
        match buildStoreEntries st fuel nd.children with
        | some es => some (.compound es)
        | none => none
      | _ =>
        match buildStoreItems st fuel nd.children with
        | some its => some (.list its)
        | none => none
    else
      match nd.ttype, nd.val? with
      | .v t, some v => some (.value t v)
      | _, _ => none

/-- The compound branch of `build_nbt` over a children list. -/
def buildStoreEntries (st : Store) : Nat → List Nat → Option NEntries
  | _, [] => some .nil
  | fuel, c :: rest =>
    match buildStoreNbt st fuel c, buildStoreEntries st fuel rest with
    | some t, some r => some (.cons (nodeAt st c).nm t r)
    | _, _ => none

/-- The sequence branch of `build_nbt` over a children list. -/
def buildStoreItems (st : Store) : Nat → List Nat → Option NItems
  | _, [] => some .nil
  | fuel, c :: rest =>
    match buildStoreNbt st fuel c, buildStoreItems st fuel rest with
    | some t, some r => some (.cons t r)
    | _, _ => none
end

/-- The `NBTEditor.nbt` property: `self._parent.build_nbt()`, a function
of the internal store alone. -/
def storeNbt (st : Store) : Option NBT :=
  buildStoreNbt st (st.length + 1) 0

/-- Reading the `nbt` property of the editor. -/
def nbtView (w : EditorWorld) : Option NBT :=
  storeNbt w.store

/-! ### nbt_editor.py: consistency of the parsed object graph -/

/-- Objects reachable from `r` by following `_children` references. -/
inductive Reach (st : Store) (r : Nat) : Nat → Prop where
  | refl : Reach st r r
  | step {j c : Nat} : Reach st r j → c ∈ (nodeAt st j).children →
      Reach st r c

/-- All `_children` references of in-range nodes are in range. -/
def BoundedSt (st : Store) : Prop :=
  ∀ i, i < st.length → ∀ c ∈ (nodeAt st i).children, c < st.length

/-- Parent/child consistency as stated by the claim: every node
reachable from the root other than the root itself has a parent
reference, that parent's `_children` list contains it exactly once, no
other reachable node lists it as a child, and every reachable node is a
container exactly when its tag type is a mapping or sequence type. -/
def consistentSt (st : Store) (r : Nat) : Prop :=
  ∀ i, Reach st r i →
    ((nodeAt st i).isCont = isContType (nodeAt st i).ttype) ∧
    (i ≠ r → ∃ p, (nodeAt st i).parent = some p ∧
      (nodeAt st p).children.count i = 1 ∧
      ∀ q, Reach st r q → q ≠ p → i ∉ (nodeAt st q).children)

/-- The new region a parse call appends to a store, seen from the
pre-state: old nodes other than the pivot `p` are untouched, `p` gains
some new children, and every new node has a parent holding it exactly
once, in-range new children, and the container flag matching its tag
type. -/
def ParseExt (st : Store) (p : Nat) (st' : Store) : Prop :=
  st.length ≤ st'.length ∧
  (∀ i, i < st.length → i ≠ p → nodeAt st' i = nodeAt st i) ∧
  (∃ ns : List Nat,
    nodeAt st' p = { nodeAt st p with
                     children := (nodeAt st p).children ++ ns } ∧
    (∀ n ∈ ns, st.length ≤ n ∧ n < st'.length)) ∧
  (∀ j, st.length ≤ j → j < st'.length →
    ((nodeAt st' j).isCont = isContType (nodeAt st' j).ttype) ∧
    (∀ c ∈ (nodeAt st' j).children, st.length ≤ c ∧ c < st'.length) ∧
    (∃ q, (nodeAt st' j).parent = some q ∧
      (q = p ∨ (st.length ≤ q ∧ q < st'.length)) ∧
      (nodeAt st' q).children.count j = 1 ∧
      (∀ q', q' ≠ q → j ∉ (nodeAt st' q').children)))

/-! ## Theorems -/

mutual
/-- When `parse_nbt` succeeds on the entries of a mapping, rebuilding
the parsed children yields back exactly those entries. -/
theorem parseEntries_build : ∀ (es : NEntries) (ps : PList),
    parseEntries es = some ps → buildEntries ps = es
  | .nil, ps, h => by
    simp only [parseEntries, Option.some.injEq] at h
    subst h
    rfl
  | .cons k v rest, ps, h => by
    cases v with
    | compound es2 =>
      cases he : parseEntries es2 with
      | none =>
        simp only [parseEntries, he] at h
        exact Option.noConfusion h
      | some kids =>
        cases hr : parseEntries rest with
        | none =>
          simp only [parseEntries, he, hr] at h
          exact Option.noConfusion h
        | some tail =>
          simp only [parseEntries, he, hr, Option.some.injEq] at h
          subst h
          simp only [buildEntries, buildNbt, Parsed.nameOf,
            parseEntries_build es2 kids he, parseEntries_build rest tail hr]
    | list its =>
      cases he : parseItems its with
      | none =>
        simp only [parseEntries, he] at h
        exact Option.noConfusion h
      | some kids =>
        cases hr : parseEntries rest with
        | none =>
          simp only [parseEntries, he, hr] at h
          exact Option.noConfusion h
        | some tail =>
          simp only [parseEntries, he, hr, Option.some.injEq] at h
          subst h
          simp only [buildEntries, buildNbt, Parsed.nameOf,
            parseItems_build its kids he, parseEntries_build rest tail hr]
    | value t pv =>
      cases hr : parseEntries rest with
      | none =>
        simp only [parseEntries, hr] at h
        exact Option.noConfusion h
      | some tail =>
        simp only [parseEntries, hr, Option.some.injEq] at h
        subst h
        simp only [buildEntries, buildNbt, Parsed.nameOf,
          parseEntries_build rest tail hr]

/-- When the item loop of `parse_nbt` succeeds on the items of a
sequence, rebuilding the parsed children yields back exactly those
items. -/
theorem parseItems_build : ∀ (its : NItems) (ps : PList),
    parseItems its = some ps → buildItems ps = its
  | .nil, ps, h => by
    simp only [parseItems, Option.some.injEq] at h
    subst h
    rfl
  | .cons c rest, ps, h => by
    cases c with
    | compound es2 =>
      cases he : parseEntries es2 with
      | none =>
        simp only [parseItems, he] at h
        exact Option.noConfusion h
      | some kids =>
        cases hr : parseItems rest with
        | none =>
          simp only [parseItems, he, hr] at h
          exact Option.noConfusion h
        | some tail =>
          simp only [parseItems, he, hr, Option.some.injEq] at h
          subst h
          simp only [buildItems, buildNbt,
            parseEntries_build es2 kids he, parseItems_build rest tail hr]
    | list its2 =>
      simp only [parseItems] at h
      exact Option.noConfusion h
    | value t pv =>
      cases hr : parseItems rest with
      | none =>
        simp only [parseItems, hr] at h
        exact Option.noConfusion h
      | some tail =>
        simp only [parseItems, hr, Option.some.injEq] at h
        subst h
        simp only [buildItems, buildNbt, parseItems_build rest tail hr]
end

/-- Round trip at the root: parsing a compound document into an empty
compound root container and rebuilding yields the document. -/
theorem parse_roundtrip_root (es : NEntries) (ps : PList)
    (h : parseEntries es = some ps) :
    buildNbt (.cont "" .compound ps) = .compound es := by
  simp only [buildNbt, parseEntries_build es ps h]

/-- Claim C1 (evaluation at the failing input): on the compound document
`{"a": TAG_List([TAG_List([])])}` the recursive call
`parse_nbt(child, new_new_parent)` receives the inner `TAG_List`, whose
`.items()` does not exist, so parsing fails instead of producing a tree
(`AttributeError` in the Python source). -/
theorem c1_parse_nbt_crash :
    parseEntries (.cons "a" (.list (.cons (.list .nil) .nil)) .nil) = none :=
  rfl

/-- Claim C2: for every movement offset and every selection state,
`Point1MoveButton._move` adds the offset to point 1 and leaves point 2
unchanged, `Point2MoveButton._move` adds the offset to point 2 and
leaves point 1 unchanged, and `SelectionMoveButton._move` adds the
offset to both points, so the box extent `p2 - p1` is unchanged. -/
theorem c2_move_buttons (offset : V3) (s : SelState) :
    point1Move offset s = ⟨addV s.point1 offset, s.point2⟩ ∧
    point2Move offset s = ⟨s.point1, addV s.point2 offset⟩ ∧
    selectionMove offset s = ⟨addV s.point1 offset, addV s.point2 offset⟩ ∧
    subV (selectionMove offset s).point2 (selectionMove offset s).point1 =
      subV s.point2 s.point1 := by
  obtain ⟨⟨x1, y1, z1⟩, ⟨x2, y2, z2⟩⟩ := s
  obtain ⟨ox, oy, oz⟩ := offset
  refine ⟨rfl, rfl, rfl, ?_⟩
  simp only [selectionMove, subV, Prod.mk.injEq]
  omega

/-- Claim C3: `serialise_key_event` returns `None` exactly when the
event is a keyboard event whose key is the Control key itself, a
keyboard event with Control held whose key is Shift or Alt, or a mouse
event that is neither a wheel event with nonzero rotation nor a
left/middle/right button press or release; in every other case it
returns a (modifier-tuple, key) pair. -/
theorem c3_serialise_none_iff (evt : WxEvt) :
    serialise_key_event evt = none ↔
      ((∃ e, evt = .key e ∧
          (effKey e = WXK_CONTROL ∨
            (e.ctrlDown = true ∧ (effKey e = WXK_SHIFT ∨ effKey e = WXK_ALT)))) ∨
       (∃ e, evt = .mouse e ∧
          (e.kind = .wheel → e.wheelRot = 0) ∧
          e.kind ≠ .leftDown ∧ e.kind ≠ .leftUp ∧ e.kind ≠ .middleDown ∧
          e.kind ≠ .middleUp ∧ e.kind ≠ .rightDown ∧ e.kind ≠ .rightUp)) := by
  cases evt with
  | key e =>
    simp only [serialise_key_event, serialise_key_branch, WxEvt.key.injEq,
      exists_eq_left', reduceCtorEq, false_and, exists_false, or_false]
    split_ifs with h1 h2
    · simp only [h1]
      tauto
    · simp only []
      tauto
    · constructor
      · intro h
        exact absurd h (by simp)
      · intro h
        exact absurd h (by tauto)
  | mouse e =>
    obtain ⟨k, rot⟩ := e
    cases k <;>
      simp only [serialise_key_event, serialise_mouse_branch, mouse_events,
        WxEvt.mouse.injEq, MouseEvt.mk.injEq, reduceCtorEq, false_and,
        exists_false, false_or, exists_eq_left', and_false, ne_eq,
        not_false_eq_true, and_true, true_and, forall_const] <;>
      (split_ifs with hn hp <;> simp_all <;> omega)

/-- Structural properties of the accumulated modifier list, by cases on
the three modifier booleans. -/
theorem c4_modList_props (c s a : Bool) :
    (c = false → modList c s a = []) ∧
    (modList c s a ≠ [] → (modList c s a).head? = some "CTRL") ∧
    ("SHIFT" ∈ modList c s a → s = true ∧
      (modList c s a).head? = some "CTRL" ∧ "SHIFT" ∈ (modList c s a).tail) ∧
    ("ALT" ∈ modList c s a → a = true ∧
      (modList c s a).head? = some "CTRL" ∧ "ALT" ∈ (modList c s a).tail) := by
  cases c <;> cases s <;> cases a <;> decide

/-- Claim C4: for every keyboard event serialised to a (modifiers, key)
pair, the modifier tuple is empty whenever Control is not held; when it
is nonempty its first element is `"CTRL"`; `"SHIFT"`/`"ALT"` appear only
after `"CTRL"` and only when the corresponding modifier is held; and a
key whose code lies in the printable range 33..126 is serialised as its
upper-cased single character. -/
theorem c4_key_serialisation (e : KeyEvt) (mods : List String) (k : KeyVal)
    (h : serialise_key_event (.key e) = some (mods, k)) :
    (e.ctrlDown = false → mods = []) ∧
    (mods ≠ [] → mods.head? = some "CTRL") ∧
    ("SHIFT" ∈ mods → e.shiftDown = true ∧
      mods.head? = some "CTRL" ∧ "SHIFT" ∈ mods.tail) ∧
    ("ALT" ∈ mods → e.altDown = true ∧
      mods.head? = some "CTRL" ∧ "ALT" ∈ mods.tail) ∧
    (33 ≤ effKey e → effKey e ≤ 126 →
      k = .str (String.mk [(Char.ofNat (effKey e)).toUpper])) := by
  have hmod := c4_modList_props e.ctrlDown e.shiftDown e.altDown
  simp only [serialise_key_event, serialise_key_branch] at h
  split_ifs at h with h1 h2 hkey
  · rw [Option.some.injEq, Prod.mk.injEq] at h
    obtain ⟨hm, hk⟩ := h
    subst hm
    subst hk
    exact ⟨hmod.1, hmod.2.1, hmod.2.2.1, hmod.2.2.2, fun _ _ => rfl⟩
  · rw [Option.some.injEq, Prod.mk.injEq] at h
    obtain ⟨hm, hk⟩ := h
    subst hm
    subst hk
    exact ⟨hmod.1, hmod.2.1, hmod.2.2.1, hmod.2.2.2,
      fun h5 h6 => absurd ⟨h5, h6⟩ hkey⟩

/-- Witness for claim C3: a wheel event with zero rotation is in the
`None` class. -/
theorem c3_serialise_none_iff_witness :
    ((∃ e, WxEvt.mouse ⟨.wheel, 0⟩ = .key e ∧
        (effKey e = WXK_CONTROL ∨
          (e.ctrlDown = true ∧ (effKey e = WXK_SHIFT ∨ effKey e = WXK_ALT)))) ∨
     (∃ e, WxEvt.mouse ⟨.wheel, 0⟩ = .mouse e ∧
        (e.kind = .wheel → e.wheelRot = 0) ∧
        e.kind ≠ .leftDown ∧ e.kind ≠ .leftUp ∧ e.kind ≠ .middleDown ∧
        e.kind ≠ .middleUp ∧ e.kind ≠ .rightDown ∧ e.kind ≠ .rightUp)) :=
  (c3_serialise_none_iff (.mouse ⟨.wheel, 0⟩)).mp (by rfl)

/-- Witness for claim C4: Ctrl+Shift with the printable key `a`
serialises to `(["CTRL", "SHIFT"], "A")` and the theorem's conclusions
hold there. -/
theorem c4_key_serialisation_witness :
    (serialise_key_event (.key ⟨97, 0, true, true, false⟩) =
      some (["CTRL", "SHIFT"], KeyVal.str "A")) ∧
    (((⟨97, 0, true, true, false⟩ : KeyEvt).ctrlDown = false →
        (["CTRL", "SHIFT"] : List String) = []) ∧
     ((["CTRL", "SHIFT"] : List String) ≠ [] →
        (["CTRL", "SHIFT"] : List String).head? = some "CTRL") ∧
     ("SHIFT" ∈ (["CTRL", "SHIFT"] : List String) →
        (⟨97, 0, true, true, false⟩ : KeyEvt).shiftDown = true ∧
        (["CTRL", "SHIFT"] : List String).head? = some "CTRL" ∧
        "SHIFT" ∈ (["CTRL", "SHIFT"] : List String).tail) ∧
     ("ALT" ∈ (["CTRL", "SHIFT"] : List String) →
        (⟨97, 0, true, true, false⟩ : KeyEvt).altDown = true ∧
        (["CTRL", "SHIFT"] : List String).head? = some "CTRL" ∧
        "ALT" ∈ (["CTRL", "SHIFT"] : List String).tail) ∧
     (33 ≤ effKey ⟨97, 0, true, true, false⟩ →
        effKey ⟨97, 0, true, true, false⟩ ≤ 126 →
        KeyVal.str "A" =
          .str (String.mk [(Char.ofNat (effKey ⟨97, 0, true, true, false⟩)).toUpper]))) :=
  ⟨by rfl,
   c4_key_serialisation ⟨97, 0, true, true, false⟩ ["CTRL", "SHIFT"]
     (KeyVal.str "A") (by rfl)⟩

/-- Rounding an integer-valued rational gives back the integer. -/
theorem roundHalfEven_intCast (n : ℤ) : roundHalfEven ((n : ℚ)) = n := by
  have hfl : floorQ ((n : ℚ)) = n := by
    unfold floorQ
    rw [Rat.num_intCast, Rat.den_intCast]
    exact Int.fdiv_one n
  simp only [roundHalfEven, hfl, sub_self]
  norm_num

/-- `roundHalfEven` is exact on expressions that are integer-valued. -/
theorem roundHalfEven_eq_of_cast (m : ℤ) (p : ℚ) (h : (m : ℚ) = p) :
    roundHalfEven p = m := by
  rw [← h, roundHalfEven_intCast]

/-- Claim C6: `MovementButton._rotate` rotates the offset about the
vertical axis by the negated camera yaw and rounds each component; the
`y` component of the result always equals the input `y` (for any angle,
expressed by its cosine and sine), and when the yaw is a multiple of 90
degrees the horizontal components are the exact image of `(x, z)` under
that rotation. -/
theorem c6_rotate_offset :
    (∀ (c s : ℚ) (v : V3), (rotateOffset c s v).2.1 = v.2.1) ∧
    (∀ (k x y z : Int), rotateAtQuarter k (x, y, z) =
      ((quarterImage k x z).1, y, (quarterImage k x z).2)) := by
  constructor
  · intro c s v
    exact roundHalfEven_intCast v.2.1
  · intro k x y z
    unfold rotateAtQuarter rotateOffset quarterImage
    simp only [Prod.mk.injEq]
    refine ⟨?_, ?_, ?_⟩
    · exact roundHalfEven_eq_of_cast _ _ (by push_cast; ring)
    · exact roundHalfEven_intCast y
    · exact roundHalfEven_eq_of_cast _ _ (by push_cast; ring)

/-- Claim C7: the four keybind presets bind exactly the same eleven
action names, `DefaultKeys` is the `"right"` preset, and every preset
binds `"box click"` to the left mouse button and
`"toggle selection mode"` to the right mouse button with empty modifier
tuples. -/
theorem c7_keybind_presets :
    (presetRight.map Prod.fst =
      ["up", "down", "forwards", "backwards", "left", "right", "box click",
       "toggle selection mode", "toggle mouse lock", "speed+", "speed-"]) ∧
    presetRightLaptop.map Prod.fst = presetRight.map Prod.fst ∧
    presetLeft.map Prod.fst = presetRight.map Prod.fst ∧
    presetLeftLaptop.map Prod.fst = presetRight.map Prod.fst ∧
    DefaultKeys = presetRight ∧
    (∀ m ∈ presets,
      m.2.lookup "box click" = some ([], .str "ML") ∧
      m.2.lookup "toggle selection mode" = some ([], .str "MR")) := by
  refine ⟨rfl, rfl, rfl, rfl, rfl, ?_⟩
  intro m hm
  fin_cases hm <;> exact ⟨rfl, rfl⟩

/-- Witness for claim C7: the `"right"` preset itself satisfies the
mouse-button binding facts. -/
theorem c7_keybind_presets_witness :
    presetRight.lookup "box click" = some ([], .str "ML") ∧
    presetRight.lookup "toggle selection mode" = some ([], .str "MR") :=
  c7_keybind_presets.2.2.2.2.2 ("right", presetRight)
    (List.mem_cons_self _ _)

/-! ### Store dereferencing lemmas -/

/-- Appending nodes does not change existing nodes. -/
theorem nodeAt_append_lt (st l : Store) (i : Nat) (h : i < st.length) :
    nodeAt (st ++ l) i = nodeAt st i :=
  List.getD_append st l default i h

/-- The freshly appended node sits at the old length. -/
theorem nodeAt_append_len (st : Store) (n : PNode) :
    nodeAt (st ++ [n]) st.length = n := by
  simp [nodeAt, List.getD_append_right]

/-- Updating the children of `p` leaves other nodes alone. -/
theorem nodeAt_updChildren_ne (st : Store) (p : Nat)
    (f : List Nat → List Nat) (i : Nat) (h : i ≠ p) :
    nodeAt (updChildren st p f) i = nodeAt st i := by
  simp [updChildren, nodeAt, List.getD, List.getElem?_set_ne (Ne.symm h)]

/-- Updating the children of an in-range `p` rewrites exactly its
children field. -/
theorem nodeAt_updChildren_self (st : Store) (p : Nat)
    (f : List Nat → List Nat) (h : p < st.length) :
    nodeAt (updChildren st p f) p =
      { nodeAt st p with children := f (nodeAt st p).children } := by
  simp [updChildren, nodeAt, List.getD, List.getElem?_set_self', h]

/-- Updating the children of an out-of-range `p` does nothing. -/
theorem updChildren_oob (st : Store) (p : Nat) (f : List Nat → List Nat)
    (h : st.length ≤ p) : updChildren st p f = st :=
  List.set_eq_of_length_le h

/-- `updChildren` keeps the store length. -/
theorem updChildren_length (st : Store) (p : Nat)
    (f : List Nat → List Nat) : (updChildren st p f).length = st.length := by
  simp [updChildren]

/-- Every field except `children` survives any `updChildren`. -/
theorem nodeAt_updChildren_fields (st : Store) (p : Nat)
    (f : List Nat → List Nat) (i : Nat) :
    (nodeAt (updChildren st p f) i).parent = (nodeAt st i).parent ∧
    (nodeAt (updChildren st p f) i).nm = (nodeAt st i).nm ∧
    (nodeAt (updChildren st p f) i).ttype = (nodeAt st i).ttype ∧
    (nodeAt (updChildren st p f) i).isCont = (nodeAt st i).isCont ∧
    (nodeAt (updChildren st p f) i).val? = (nodeAt st i).val? := by
  by_cases hi : i = p
  · subst hi
    by_cases hp : i < st.length
    · rw [nodeAt_updChildren_self st i f hp]
      exact ⟨rfl, rfl, rfl, rfl, rfl⟩
    · rw [updChildren_oob st i f (Nat.le_of_not_lt hp)]
      exact ⟨rfl, rfl, rfl, rfl, rfl⟩
  · rw [nodeAt_updChildren_ne st p f i hi]
    exact ⟨rfl, rfl, rfl, rfl, rfl⟩

/-! ### C8: the editor never touches the caller's document -/

/-- Editing interactions act on the store component only. -/
theorem applyOps_doc (w : EditorWorld) (ops : List EditOp) :
    (applyOps w ops).doc = w.doc := by
  induction ops generalizing w with
  | nil => rfl
  | cons op rest ih =>
    rw [applyOps]
    exact ih ⟨w.doc, applyOp w.store op⟩

/-- Claim C8: the constructor parses a deep copy of the document, every
editing interaction acts on the internal store, and the `nbt` property
is rebuilt from the internal store alone; the caller's document is
unchanged by any interaction sequence. -/
theorem c8_editor_frame (d : NBT) (w : EditorWorld) (ops : List EditOp)
    (h : initEditor d = some w) :
    (applyOps w ops).doc = d ∧
    nbtView (applyOps w ops) = storeNbt (applyOps w ops).store := by
  have hd : w.doc = d := by
    cases d with
    | compound es =>
      simp only [initEditor, deepcopyNBT] at h
      cases hp : storeParseEntries es 0 [rootNode] with
      | none =>
        rw [hp] at h
        exact Option.noConfusion h
      | some st =>
        rw [hp] at h
        rw [Option.some.injEq] at h
        rw [← h]
    | value t pv =>
      simp only [initEditor, deepcopyNBT] at h
      exact Option.noConfusion h
    | list its =>
      simp only [initEditor, deepcopyNBT] at h
      exact Option.noConfusion h
  refine ⟨?_, rfl⟩
  rw [applyOps_doc, hd]

/-- Witness for claim C8: a one-entry document, parsed and then edited
and deleted, leaves the caller's document untouched. -/
theorem c8_editor_frame_witness :
    (applyOps
        ⟨NBT.compound (.cons "a" (.value .byte (.int 1)) .nil),
         [⟨none, "", .compound, true, none, [1]⟩,
          ⟨some 0, "a", .v .byte, false, some (.int 1), []⟩]⟩
        [.edit 1 "b" (.int 2), .del 1]).doc =
      NBT.compound (.cons "a" (.value .byte (.int 1)) .nil) ∧
    nbtView (applyOps
        ⟨NBT.compound (.cons "a" (.value .byte (.int 1)) .nil),
         [⟨none, "", .compound, true, none, [1]⟩,
          ⟨some 0, "a", .v .byte, false, some (.int 1), []⟩]⟩
        [.edit 1 "b" (.int 2), .del 1]) =
      storeNbt (applyOps
        ⟨NBT.compound (.cons "a" (.value .byte (.int 1)) .nil),
         [⟨none, "", .compound, true, none, [1]⟩,
          ⟨some 0, "a", .v .byte, false, some (.int 1), []⟩]⟩
        [.edit 1 "b" (.int 2), .del 1]).store :=
  c8_editor_frame (NBT.compound (.cons "a" (.value .byte (.int 1)) .nil))
    ⟨NBT.compound (.cons "a" (.value .byte (.int 1)) .nil),
     [⟨none, "", .compound, true, none, [1]⟩,
      ⟨some 0, "a", .v .byte, false, some (.int 1), []⟩]⟩
    [.edit 1 "b" (.int 2), .del 1] (by rfl)

/-! ### C5: character classes and greedy matching -/

/-- Numeric reading of the whitespace class. -/
theorem isWsChar_toNat {c : Char} (h : isWsChar c = true) :
    (9 ≤ c.toNat ∧ c.toNat ≤ 13) ∨ (28 ≤ c.toNat ∧ c.toNat ≤ 32) ∨
    c.toNat = 133 ∨ c.toNat = 160 ∨ c.toNat = 5760 ∨
    (8192 ≤ c.toNat ∧ c.toNat ≤ 8202) ∨ c.toNat = 8232 ∨
    c.toNat = 8233 ∨ c.toNat = 8239 ∨ c.toNat = 8287 ∨
    c.toNat = 12288 := by
  simp only [isWsChar, Bool.or_eq_true, Bool.and_eq_true,
    decide_eq_true_eq] at h
  tauto

/-- Numeric reading of the digit class. -/
theorem isDigitChar_toNat {c : Char} (h : isDigitChar c = true) :
    48 ≤ c.toNat ∧ c.toNat ≤ 57 := by
  simp only [isDigitChar, Bool.and_eq_true, decide_eq_true_eq] at h
  exact h

/-- A digit is not whitespace and not one of the structural
characters. -/
theorem digit_facts {c : Char} (h : isDigitChar c = true) :
    isWsChar c = false ∧ c ≠ ',' ∧ c ≠ '.' ∧ c ≠ '-' := by
  obtain ⟨h1, h2⟩ := isDigitChar_toNat h
  refine ⟨?_, ?_, ?_, ?_⟩
  · cases hw : isWsChar c with
    | false => rfl
    | true =>
      have := isWsChar_toNat hw
      omega
  · intro he; subst he; exact absurd h (by decide)
  · intro he; subst he; exact absurd h (by decide)
  · intro he; subst he; exact absurd h (by decide)

/-- A whitespace character is not a digit and not one of the structural
characters. -/
theorem ws_facts {c : Char} (h : isWsChar c = true) :
    isDigitChar c = false ∧ c ≠ ',' ∧ c ≠ '.' ∧ c ≠ '-' := by
  have hn := isWsChar_toNat h
  refine ⟨?_, ?_, ?_, ?_⟩
  · cases hd : isDigitChar c with
    | false => rfl
    | true =>
      have := isDigitChar_toNat hd
      omega
  · intro he; subst he; exact absurd h (by decide)
  · intro he; subst he; exact absurd h (by decide)
  · intro he; subst he; exact absurd h (by decide)

/-- `takeWhile` passes over a prefix it accepts entirely. -/
theorem takeWhile_append_all (p : Char → Bool) :
    ∀ (l1 l2 : List Char), (∀ c ∈ l1, p c = true) →
      (l1 ++ l2).takeWhile p = l1 ++ l2.takeWhile p
  | [], _, _ => rfl
  | c :: t, l2, h => by
    have hc : p c = true := h c (List.mem_cons_self c t)
    simp only [List.cons_append, List.takeWhile_cons, hc, if_true]
    rw [takeWhile_append_all p t l2 (fun x hx => h x (List.mem_cons_of_mem c hx))]

/-- `dropWhile` skips a prefix it accepts entirely. -/
theorem dropWhile_append_all (p : Char → Bool) :
    ∀ (l1 l2 : List Char), (∀ c ∈ l1, p c = true) →
      (l1 ++ l2).dropWhile p = l2.dropWhile p
  | [], _, _ => rfl
  | c :: t, l2, h => by
    have hc : p c = true := h c (List.mem_cons_self c t)
    simp only [List.cons_append, List.dropWhile_cons, hc, if_true]
    exact dropWhile_append_all p t l2 (fun x hx => h x (List.mem_cons_of_mem c hx))

/-- `takeWhile` stops at a rejected head. -/
theorem takeWhile_head_false (p : Char → Bool) (l : List Char)
    (h : ∀ c t, l = c :: t → p c = false) : l.takeWhile p = [] := by
  cases l with
  | nil => rfl
  | cons c t => simp [List.takeWhile_cons, h c t rfl]

/-- `dropWhile` stops at a rejected head. -/
theorem dropWhile_head_false (p : Char → Bool) (l : List Char)
    (h : ∀ c t, l = c :: t → p c = false) : l.dropWhile p = l := by
  cases l with
  | nil => rfl
  | cons c t => simp [List.dropWhile_cons, h c t rfl]

/-- The head of the remainder of `dropWhile` is rejected. -/
theorem dropWhile_head_not (p : Char → Bool) (l : List Char) :
    ∀ c t, l.dropWhile p = c :: t → p c = false := by
  induction l with
  | nil =>
    intro c t h
    exact absurd h (by simp)
  | cons a l ih =>
    intro c t h
    cases hpa : p a with
    | true =>
      rw [List.dropWhile_cons, if_pos hpa] at h
      exact ih c t h
    | false =>
      rw [List.dropWhile_cons, if_neg (by simp [hpa])] at h
      injection h with h1 _
      rw [← h1]
      exact hpa

/-- `dropWhile` consumes a list it accepts entirely. -/
theorem dropWhile_all_nil (p : Char → Bool) (l : List Char)
    (h : ∀ c ∈ l, p c = true) : l.dropWhile p = [] := by
  have h2 := dropWhile_append_all p l [] h
  rw [List.append_nil] at h2
  rw [h2]
  rfl

/-- A coordinate group starts with a minus sign or a digit. -/
theorem numStr_head {n : List Char} (h : IsNumStr n) :
    ∃ c t, n = c :: t ∧ (c = '-' ∨ isDigitChar c = true) := by
  obtain ⟨sign, ip, frac, rfl, hs, hne, hdig, _⟩ := h
  rcases hs with rfl | rfl
  · cases ip with
    | nil => exact absurd rfl hne
    | cons c t =>
      exact ⟨c, t ++ frac, by simp, Or.inr (hdig c (List.mem_cons_self c t))⟩
  · exact ⟨'-', ip ++ frac, rfl, Or.inl rfl⟩

/-- A separator starts with a comma or a whitespace character. -/
theorem sepStr_head {s : List Char} (h : IsSepStr s) :
    ∃ c t, s = c :: t ∧ (c = ',' ∨ isWsChar c = true) := by
  rcases h with ⟨w, rfl, _⟩ | ⟨hne, hws⟩
  · exact ⟨',', w, rfl, Or.inl rfl⟩
  · cases s with
    | nil => exact absurd rfl hne
    | cons c t => exact ⟨c, t, rfl, Or.inr (hws c (List.mem_cons_self c t))⟩

/-- `parseNumTail` consumes a prefix of its input. -/
theorem parseNumTail_split (r1 : List Char) :
    r1 = (parseNumTail r1).1 ++ (parseNumTail r1).2 := by
  cases r1 with
  | nil => rfl
  | cons c r2 =>
    by_cases hc : c = '.'
    · subst hc
      simp [parseNumTail, List.takeWhile_append_dropWhile]
    · simp [parseNumTail, hc, List.takeWhile_append_dropWhile]

/-- What `parseNumTail` consumes is a legal fractional part, provided
its input cannot start with a digit. -/
theorem parseNumTail_frac (r1 : List Char)
    (hhead : ∀ c t, r1 = c :: t → isDigitChar c = false) :
    (parseNumTail r1).1 = [] ∨
      (∃ ds, (parseNumTail r1).1 = '.' :: ds ∧
        ∀ c ∈ ds, isDigitChar c = true) := by
  cases r1 with
  | nil => exact Or.inl rfl
  | cons c r2 =>
    by_cases hc : c = '.'
    · subst hc
      exact Or.inr ⟨r2.takeWhile isDigitChar, by simp [parseNumTail],
        fun x hx => List.mem_takeWhile_imp hx⟩
    · left
      simp only [parseNumTail, if_neg hc]
      exact takeWhile_head_false _ _
        (fun c2 t2 he => by
          injection he with he1 _
          rw [← he1]
          exact hhead c r2 rfl)

/-- `parseNumTail` consumes nothing when its input starts with neither a
digit nor a dot. -/
theorem parseNumTail_stop (r : List Char)
    (h : ∀ c t, r = c :: t → isDigitChar c = false ∧ c ≠ '.') :
    parseNumTail r = ([], r) := by
  cases r with
  | nil => rfl
  | cons c t =>
    obtain ⟨hd, hdot⟩ := h c t rfl
    simp only [parseNumTail, if_neg hdot]
    rw [takeWhile_head_false _ _ (fun c2 t2 he => by
          injection he with he1 _
          rw [← he1]
          exact hd),
        dropWhile_head_false _ _ (fun c2 t2 he => by
          injection he with he1 _
          rw [← he1]
          exact hd)]

/-- Soundness of the number group after the optional sign: a success
consumes a prefix that is a legal coordinate. -/
theorem parseNumFrom_sound (sign cs1 n r : List Char)
    (hs : sign = [] ∨ sign = ['-'])
    (h : parseNumFrom sign cs1 = some (n, r)) :
    sign ++ cs1 = n ++ r ∧ IsNumStr n := by
  unfold parseNumFrom at h
  by_cases hd : cs1.takeWhile isDigitChar = []
  · rw [if_pos hd] at h
    exact Option.noConfusion h
  · rw [if_neg hd, Option.some.injEq, Prod.mk.injEq] at h
    obtain ⟨hn, hr⟩ := h
    have hsplit1 : cs1 = cs1.takeWhile isDigitChar ++ cs1.dropWhile isDigitChar :=
      (List.takeWhile_append_dropWhile ..).symm
    have hsplit2 := parseNumTail_split (cs1.dropWhile isDigitChar)
    constructor
    · rw [← hn, ← hr]
      calc sign ++ cs1
          = sign ++ (cs1.takeWhile isDigitChar ++
              ((parseNumTail (cs1.dropWhile isDigitChar)).1 ++
               (parseNumTail (cs1.dropWhile isDigitChar)).2)) := by
            rw [← hsplit2, ← hsplit1]
        _ = sign ++ cs1.takeWhile isDigitChar ++
              (parseNumTail (cs1.dropWhile isDigitChar)).1 ++
              (parseNumTail (cs1.dropWhile isDigitChar)).2 := by
            simp [List.append_assoc]
    · refine ⟨sign, cs1.takeWhile isDigitChar,
        (parseNumTail (cs1.dropWhile isDigitChar)).1, hn.symm, hs, hd,
        fun x hx => List.mem_takeWhile_imp hx, ?_⟩
      exact parseNumTail_frac _ (dropWhile_head_not _ _)

/-- Soundness of the coordinate group: a success consumes a prefix that
is a legal coordinate. -/
theorem parseNum_sound (cs n r : List Char) (h : parseNum cs = some (n, r)) :
    cs = n ++ r ∧ IsNumStr n := by
  cases cs with
  | nil =>
    simp [parseNum, parseNumFrom] at h
  | cons c rest =>
    by_cases hc : c = '-'
    · rw [parseNum, if_pos hc] at h
      have := parseNumFrom_sound ['-'] rest n r (Or.inr rfl) h
      subst hc
      exact this
    · rw [parseNum, if_neg hc] at h
      exact parseNumFrom_sound [] (c :: rest) n r (Or.inl rfl) h

/-- Completeness of the coordinate group: on a legal coordinate followed
by anything that starts with neither a digit nor a dot, the greedy match
consumes exactly the coordinate.  (This is where greedy matching agrees
with the regex's backtracking: nothing past the coordinate can extend
the group.) -/
theorem parseNum_complete (n r : List Char) (hn : IsNumStr n)
    (hr : ∀ c t, r = c :: t → isDigitChar c = false ∧ c ≠ '.') :
    parseNum (n ++ r) = some (n, r) := by
  obtain ⟨sign, ip, frac, rfl, hs, hne, hdig, hfrac⟩ := hn
  have hfr : ∀ c t, frac ++ r = c :: t → isDigitChar c = false := by
    intro c t he
    rcases hfrac with rfl | ⟨ds, rfl, _⟩
    · exact (hr c t he).1
    · rw [List.cons_append] at he
      injection he with he1 _
      rw [← he1]
      decide
  have htake : (ip ++ (frac ++ r)).takeWhile isDigitChar = ip := by
    rw [takeWhile_append_all _ ip (frac ++ r) hdig,
      takeWhile_head_false _ _ hfr, List.append_nil]
  have hdrop : (ip ++ (frac ++ r)).dropWhile isDigitChar = frac ++ r := by
    rw [dropWhile_append_all _ ip (frac ++ r) hdig,
      dropWhile_head_false _ _ hfr]
  have htail : parseNumTail (frac ++ r) = (frac, r) := by
    rcases hfrac with rfl | ⟨ds, rfl, hds⟩
    · rw [List.nil_append]
      exact parseNumTail_stop r hr
    · rw [List.cons_append]
      have hpt : parseNumTail ('.' :: (ds ++ r)) =
          ('.' :: (ds ++ r).takeWhile isDigitChar,
           (ds ++ r).dropWhile isDigitChar) := by
        rw [parseNumTail, if_pos rfl]
      rw [hpt, takeWhile_append_all _ ds r hds,
        takeWhile_head_false _ _ (fun c t he => (hr c t he).1),
        List.append_nil,
        dropWhile_append_all _ ds r hds,
        dropWhile_head_false _ _ (fun c t he => (hr c t he).1)]
  have hbody : parseNumFrom sign (ip ++ (frac ++ r)) =
      some (sign ++ ip ++ frac, r) := by
    unfold parseNumFrom
    rw [htake, hdrop, htail, if_neg hne]
  rcases hs with rfl | rfl
  · cases ip with
    | nil => exact absurd rfl hne
    | cons c t =>
      have hcd := hdig c (List.mem_cons_self c t)
      have hc : c ≠ '-' := (digit_facts hcd).2.2.2
      have hshape : ([] ++ (c :: t) ++ frac) ++ r = c :: (t ++ (frac ++ r)) := by
        simp [List.append_assoc]
      rw [hshape, parseNum, if_neg hc]
      have hshape2 : (c :: t) ++ (frac ++ r) = c :: (t ++ (frac ++ r)) := by
        simp
      rw [← hshape2, hbody]
  · have hshape : (['-'] ++ ip ++ frac) ++ r = '-' :: (ip ++ (frac ++ r)) := by
      simp [List.append_assoc]
    rw [hshape, parseNum, if_pos rfl, hbody]

/-- Soundness of the separator group. -/
theorem parseSep_sound (cs s r : List Char) (h : parseSep cs = some (s, r)) :
    cs = s ++ r ∧ IsSepStr s := by
  cases cs with
  | nil => exact Option.noConfusion h
  | cons c rest =>
    by_cases hc : c = ','
    · rw [parseSep, if_pos hc, Option.some.injEq, Prod.mk.injEq] at h
      obtain ⟨hs, hr⟩ := h
      subst hc
      refine ⟨?_, ?_⟩
      · rw [← hs, ← hr]
        simp [List.takeWhile_append_dropWhile]
      · rw [← hs]
        exact Or.inl ⟨rest.takeWhile isWsChar, rfl,
          fun x hx => List.mem_takeWhile_imp hx⟩
    · rw [parseSep, if_neg hc] at h
      by_cases hw : (c :: rest).takeWhile isWsChar = []
      · rw [if_pos hw] at h
        exact Option.noConfusion h
      · rw [if_neg hw, Option.some.injEq, Prod.mk.injEq] at h
        obtain ⟨hs, hr⟩ := h
        refine ⟨?_, ?_⟩
        · rw [← hs, ← hr]
          simp [List.takeWhile_append_dropWhile]
        · rw [← hs]
          exact Or.inr ⟨hw, fun x hx => List.mem_takeWhile_imp hx⟩

/-- Completeness of the separator group: on a legal separator followed
by anything that starts with a digit or a minus sign, the greedy match
consumes exactly the separator. -/
theorem parseSep_complete (s r : List Char) (hs : IsSepStr s)
    (hr : ∀ c t, r = c :: t → c = '-' ∨ isDigitChar c = true) :
    parseSep (s ++ r) = some (s, r) := by
  have hrw : ∀ c t, r = c :: t → isWsChar c = false := by
    intro c t he
    rcases hr c t he with rfl | hd
    · decide
    · exact (digit_facts hd).1
  rcases hs with ⟨w, rfl, hw⟩ | ⟨hne, hw⟩
  · rw [List.cons_append, parseSep, if_pos rfl,
      takeWhile_append_all _ w r hw, takeWhile_head_false _ _ hrw,
      List.append_nil, dropWhile_append_all _ w r hw,
      dropWhile_head_false _ _ hrw]
  · cases s with
    | nil => exact absurd rfl hne
    | cons c t =>
      have hcw : isWsChar c = true := hw c (List.mem_cons_self c t)
      have hc : c ≠ ',' := (ws_facts hcw).2.1
      rw [List.cons_append, parseSep, if_neg hc]
      have htk : ((c :: t) ++ r).takeWhile isWsChar = c :: t := by
        rw [takeWhile_append_all _ (c :: t) r hw,
          takeWhile_head_false _ _ hrw, List.append_nil]
      have hdp : ((c :: t) ++ r).dropWhile isWsChar = r := by
        rw [dropWhile_append_all _ (c :: t) r hw,
          dropWhile_head_false _ _ hrw]
      rw [List.cons_append] at htk hdp
      rw [htk, hdp, if_neg (by simp)]

/-- The optional trailing comma splits off the front of the tail. -/
theorem dropComma_split (l : List Char) :
    ∃ tc, l = tc ++ dropComma l ∧ (tc = [] ∨ tc = [',']) := by
  cases l with
  | nil => exact ⟨[], rfl, Or.inl rfl⟩
  | cons c t =>
    by_cases hc : c = ','
    · subst hc
      exact ⟨[','], by simp [dropComma], Or.inr rfl⟩
    · exact ⟨[], by simp [dropComma, hc], Or.inl rfl⟩

/-- The trailing `,?\s*$` of the pattern accepts an optional comma
followed by whitespace. -/
theorem dropComma_complete (tc w1 : List Char) (htc : tc = [] ∨ tc = [','])
    (hw : ∀ c ∈ w1, isWsChar c = true) :
    (dropComma (tc ++ w1)).dropWhile isWsChar = [] := by
  rcases htc with rfl | rfl
  · rw [List.nil_append]
    cases w1 with
    | nil => rfl
    | cons c t =>
      have hc : c ≠ ',' := (ws_facts (hw c (List.mem_cons_self c t))).2.1
      simp only [dropComma, if_neg hc]
      exact dropWhile_all_nil _ _ hw
  · have he : ([','] ++ w1) = ',' :: w1 := by simp
    rw [he]
    simp only [dropComma, if_pos rfl]
    exact dropWhile_all_nil _ _ hw

/-- A coordinate followed by anything starts with a non-whitespace
character. -/
theorem numStr_append_head_ws (n rtail : List Char) (hn : IsNumStr n) :
    ∀ c t, n ++ rtail = c :: t → isWsChar c = false := by
  intro c t he
  obtain ⟨c0, t0, rfl, hc0⟩ := numStr_head hn
  rw [List.cons_append] at he
  injection he with he1 _
  rw [← he1]
  rcases hc0 with rfl | hd
  · decide
  · exact (digit_facts hd).1

/-- A coordinate followed by anything starts with a minus sign or
digit. -/
theorem numStr_append_head (n rtail : List Char) (hn : IsNumStr n) :
    ∀ c t, n ++ rtail = c :: t → c = '-' ∨ isDigitChar c = true := by
  intro c t he
  obtain ⟨c0, t0, rfl, hc0⟩ := numStr_head hn
  rw [List.cons_append] at he
  injection he with he1 _
  rw [← he1]
  exact hc0

/-- A separator followed by anything starts with neither a digit nor a
dot. -/
theorem sepStr_append_head (sx rtail : List Char) (hs : IsSepStr sx) :
    ∀ c t, sx ++ rtail = c :: t → isDigitChar c = false ∧ c ≠ '.' := by
  intro c t he
  obtain ⟨c0, t0, rfl, hc0⟩ := sepStr_head hs
  rw [List.cons_append] at he
  injection he with he1 _
  rw [← he1]
  rcases hc0 with rfl | hws
  · exact ⟨by decide, by decide⟩
  · exact ⟨(ws_facts hws).1, (ws_facts hws).2.2.1⟩

/-- Claim C5: `CoordRegex` accepts a string exactly when it consists of
optional leading whitespace, three decimal coordinates (optional minus
sign, one or more digits, optional fractional part) separated by a comma
with optional whitespace or by whitespace, an optional trailing comma
and optional trailing whitespace; and on Ctrl+V the dialog sets its
x, y, z fields from the three captured groups exactly when the clipboard
text matches. -/
theorem c5_coord_paste (s : String) (st : GoToState) :
    ((coordMatch s).isSome = true ↔ CoordSpec s) ∧
    (∀ a b c, coordMatch s = some (a, b, c) →
      onPasteClipboard s st = ⟨a, b, c⟩) ∧
    (coordMatch s = none → onPasteClipboard s st = st) := by
  refine ⟨⟨?_, ?_⟩, ?_, ?_⟩
  · intro hsome
    obtain ⟨g, hm⟩ := Option.isSome_iff_exists.mp hsome
    unfold coordMatch at hm
    cases h1 : parseNum (s.data.dropWhile isWsChar) with
    | none =>
      simp only [h1] at hm
      exact Option.noConfusion hm
    | some v1 =>
    obtain ⟨n1, r1⟩ := v1
    simp only [h1] at hm
    cases h2 : parseSep r1 with
    | none =>
      simp only [h2] at hm
      exact Option.noConfusion hm
    | some v2 =>
    obtain ⟨s1x, r2⟩ := v2
    simp only [h2] at hm
    cases h3 : parseNum r2 with
    | none =>
      simp only [h3] at hm
      exact Option.noConfusion hm
    | some v3 =>
    obtain ⟨n2, r3⟩ := v3
    simp only [h3] at hm
    cases h4 : parseSep r3 with
    | none =>
      simp only [h4] at hm
      exact Option.noConfusion hm
    | some v4 =>
    obtain ⟨s2x, r4⟩ := v4
    simp only [h4] at hm
    cases h5 : parseNum r4 with
    | none =>
      simp only [h5] at hm
      exact Option.noConfusion hm
    | some v5 =>
    obtain ⟨n3, r5⟩ := v5
    simp only [h5] at hm
    by_cases h6 : (dropComma r5).dropWhile isWsChar = []
    · obtain ⟨e1, hnum1⟩ := parseNum_sound _ _ _ h1
      obtain ⟨e2, hsep1⟩ := parseSep_sound _ _ _ h2
      obtain ⟨e3, hnum2⟩ := parseNum_sound _ _ _ h3
      obtain ⟨e4, hsep2⟩ := parseSep_sound _ _ _ h4
      obtain ⟨e5, hnum3⟩ := parseNum_sound _ _ _ h5
      obtain ⟨tc, etc2, htc⟩ := dropComma_split r5
      have hw1 : ∀ c ∈ dropComma r5, isWsChar c = true := by
        intro c hc
        exact List.dropWhile_eq_nil_iff.mp h6 c hc
      refine ⟨s.data.takeWhile isWsChar, n1, s1x, n2, s2x, n3, tc,
        dropComma r5, ?_,
        fun c hc => List.mem_takeWhile_imp hc,
        hnum1, hsep1, hnum2, hsep2, hnum3, htc, hw1⟩
      have hsplit : s.data =
          s.data.takeWhile isWsChar ++ s.data.dropWhile isWsChar :=
        (List.takeWhile_append_dropWhile ..).symm
      rw [etc2] at e5
      conv_lhs => rw [hsplit]
      rw [e1, e2, e3, e4, e5]
      simp [List.append_assoc]
    · simp only [if_neg h6] at hm
      exact Option.noConfusion hm
  · intro hspec
    obtain ⟨w0, n1, s1, n2, s2, n3, tc, w1, heq, hw0, hn1, hs1, hn2, hs2,
      hn3, htc, hw1⟩ := hspec
    have heq' : s.data =
        w0 ++ (n1 ++ (s1 ++ (n2 ++ (s2 ++ (n3 ++ (tc ++ w1)))))) := by
      rw [heq]
      simp [List.append_assoc]
    have htail_head : ∀ c t, tc ++ w1 = c :: t →
        isDigitChar c = false ∧ c ≠ '.' := by
      intro c t he
      rcases htc with rfl | rfl
      · rw [List.nil_append] at he
        have hcw := hw1 c (he ▸ List.mem_cons_self c t)
        exact ⟨(ws_facts hcw).1, (ws_facts hcw).2.2.1⟩
      · rw [List.cons_append] at he
        injection he with he1 _
        rw [← he1]
        exact ⟨by decide, by decide⟩
    have hd0 : s.data.dropWhile isWsChar =
        n1 ++ (s1 ++ (n2 ++ (s2 ++ (n3 ++ (tc ++ w1))))) := by
      rw [heq', dropWhile_append_all _ w0 _ hw0,
        dropWhile_head_false _ _ (numStr_append_head_ws n1 _ hn1)]
    have hp1 := parseNum_complete n1 (s1 ++ (n2 ++ (s2 ++ (n3 ++ (tc ++ w1)))))
      hn1 (sepStr_append_head s1 _ hs1)
    have hp2 := parseSep_complete s1 (n2 ++ (s2 ++ (n3 ++ (tc ++ w1))))
      hs1 (numStr_append_head n2 _ hn2)
    have hp3 := parseNum_complete n2 (s2 ++ (n3 ++ (tc ++ w1)))
      hn2 (sepStr_append_head s2 _ hs2)
    have hp4 := parseSep_complete s2 (n3 ++ (tc ++ w1))
      hs2 (numStr_append_head n3 _ hn3)
    have hp5 := parseNum_complete n3 (tc ++ w1) hn3 htail_head
    have hp6 := dropComma_complete tc w1 htc hw1
    unfold coordMatch
    rw [hd0]
    simp only [hp1, hp2, hp3, hp4, hp5, hp6]
    simp
  · intro a b c hm
    unfold onPasteClipboard
    rw [hm]
  · intro hm
    unfold onPasteClipboard
    rw [hm]

/-- Witness for claim C5: the clipboard text `"1, 2.5, -3 "` matches the
pattern and the paste handler fills the three fields from its captured
groups. -/
theorem c5_coord_paste_witness :
    CoordSpec "1, 2.5, -3 " ∧
    onPasteClipboard "1, 2.5, -3 " ⟨"0", "0", "0"⟩ = ⟨"1", "2.5", "-3"⟩ :=
  ⟨(c5_coord_paste "1, 2.5, -3 " ⟨"0", "0", "0"⟩).1.mp (by rfl),
   (c5_coord_paste "1, 2.5, -3 " ⟨"0", "0", "0"⟩).2.1 "1" "2.5" "-3" (by rfl)⟩

/-- Claim C10: a mouse wheel event with zero rotation serialises to
`None`; negative rotation serialises to `MWSD` and positive rotation to
`MWSU`, always with an empty modifier tuple. -/
theorem c10_wheel_serialisation (rot : Int) :
    serialise_key_event (.mouse ⟨.wheel, rot⟩) =
      if rot < 0 then some ([], .str "MWSD")
      else if 0 < rot then some ([], .str "MWSU")
      else none := by
  simp [serialise_key_event, serialise_mouse_branch]

/-! ### C9: consistency of the parsed object graph -/

/-- Out-of-range indices dereference to the inert default node. -/
theorem nodeAt_oob (st : Store) (i : Nat) (h : st.length ≤ i) :
    nodeAt st i = default := by
  rw [nodeAt, List.getD_eq_getElem?_getD, List.getElem?_eq_none h]
  rfl

/-- The default node has no children. -/
theorem default_children : (default : PNode).children = [] := rfl

/-- A node whose children list counts anything is in range. -/
theorem count_one_in_range (st : Store) (p0 i : Nat)
    (h : (nodeAt st p0).children.count i = 1) : p0 < st.length := by
  by_contra hge
  rw [nodeAt_oob st p0 (Nat.le_of_not_lt hge), default_children] at h
  simp at h

/-- Appending a childless node preserves boundedness. -/
theorem BoundedSt_append (st : Store) (n : PNode) (hb : BoundedSt st)
    (hn : n.children = []) : BoundedSt (st ++ [n]) := by
  intro i hi c hc
  rw [List.length_append, List.length_singleton] at hi
  by_cases hlt : i < st.length
  · rw [nodeAt_append_lt st [n] i hlt] at hc
    have := hb i hlt c hc
    rw [List.length_append, List.length_singleton]
    omega
  · have hieq : i = st.length := by omega
    subst hieq
    rw [nodeAt_append_len, hn] at hc
    exact absurd hc (List.not_mem_nil c)

/-- The fresh tag node has no children. -/
theorem newTagNode_children (p : Nat) (nm : String) (v : Prim) (t : NTag) :
    (newTagNode p nm v t).children = [] := by
  unfold newTagNode
  split <;> rfl

/-- The fresh tag node carries its parent reference. -/
theorem newTagNode_parent (p : Nat) (nm : String) (v : Prim) (t : NTag) :
    (newTagNode p nm v t).parent = some p := by
  unfold newTagNode
  split <;> rfl

/-- The fresh tag node is a container exactly when its tag type is a
container type (the dialog picks the node class by the tag type). -/
theorem newTagNode_wf (p : Nat) (nm : String) (v : Prim) (t : NTag) :
    (newTagNode p nm v t).isCont = isContType (newTagNode p nm v t).ttype := by
  unfold newTagNode
  cases hc : isContType t <;> simp [hc]

/-- A parse that adds nothing is a trivial extension. -/
theorem ParseExt_refl (st : Store) (p : Nat) : ParseExt st p st := by
  refine ⟨Nat.le_refl _, fun i _ _ => rfl, ⟨[], by simp, by simp⟩, ?_⟩
  intro j hj hj2
  exact absurd (Nat.lt_of_le_of_lt hj hj2) (Nat.lt_irrefl _)

/-- Extensions preserve boundedness. -/
theorem ParseExt_bounded (st : Store) (p : Nat) (st' : Store)
    (hb : BoundedSt st) (h : ParseExt st p st') : BoundedSt st' := by
  obtain ⟨hlen, hold, ⟨ns, hpn, hns⟩, hnew⟩ := h
  intro i hi c hc
  by_cases hilt : i < st.length
  · by_cases hip : i = p
    · subst hip
      simp only [hpn] at hc
      rcases List.mem_append.mp hc with h1 | h2
      · have := hb i hilt c h1
        omega
      · have := hns c h2
        omega
    · rw [hold i hilt hip] at hc
      have := hb i hilt c hc
      omega
  · obtain ⟨_, hchb, _⟩ := hnew i (by omega) hi
    have := hchb c hc
    omega

/-- Two successive extensions with the same pivot compose. -/
theorem ParseExt_trans (st st1 st2 : Store) (p : Nat)
    (hp : p < st.length)
    (h1 : ParseExt st p st1) (h2 : ParseExt st1 p st2) :
    ParseExt st p st2 := by
  obtain ⟨hlen1, hold1, ⟨ns1, hp1, hns1⟩, hnew1⟩ := h1
  obtain ⟨hlen2, hold2, ⟨ns2, hp2, hns2⟩, hnew2⟩ := h2
  refine ⟨Nat.le_trans hlen1 hlen2, ?_, ⟨ns1 ++ ns2, ?_, ?_⟩, ?_⟩
  · intro i hi hip
    rw [hold2 i (Nat.lt_of_lt_of_le hi hlen1) hip, hold1 i hi hip]
  · rw [hp2, hp1]
    simp [List.append_assoc]
  · intro n hn
    rcases List.mem_append.mp hn with h | h
    · have := hns1 n h
      omega
    · have := hns2 n h
      omega
  · intro j hj hj2
    by_cases hreg : j < st1.length
    · have hjp : j ≠ p := by omega
      have hnode : nodeAt st2 j = nodeAt st1 j := hold2 j hreg hjp
      obtain ⟨hcont1, hchb1, q, hq, hqr, hqc, hquniq⟩ := hnew1 j hj hreg
      refine ⟨by rw [hnode]; exact hcont1, ?_,
        q, by rw [hnode]; exact hq, ?_, ?_, ?_⟩
      · intro c hc
        rw [hnode] at hc
        have := hchb1 c hc
        omega
      · rcases hqr with rfl | hqr2
        · exact Or.inl rfl
        · exact Or.inr ⟨hqr2.1, by omega⟩
      · rcases hqr with rfl | ⟨hq1, hq2⟩
        · simp only [hp2, List.count_append]
          have hns2j : j ∉ ns2 := fun hmem => by
            have := hns2 j hmem
            omega
          rw [List.count_eq_zero.mpr hns2j]
          simpa using hqc
        · rw [hold2 q hq2 (by omega)]
          exact hqc
      · intro q' hq'q hmem
        by_cases hq'p : q' = p
        · subst hq'p
          simp only [hp2] at hmem
          rcases List.mem_append.mp hmem with hmem1 | hmem2
          · exact hquniq q' hq'q hmem1
          · have := hns2 j hmem2
            omega
        · by_cases hq'lt : q' < st1.length
          · rw [hold2 q' hq'lt hq'p] at hmem
            exact hquniq q' hq'q hmem
          · by_cases hq'lt2 : q' < st2.length
            · obtain ⟨_, hchb2, _⟩ := hnew2 q' (by omega) hq'lt2
              have := hchb2 j hmem
              omega
            · rw [nodeAt_oob st2 q' (by omega), default_children] at hmem
              exact absurd hmem (List.not_mem_nil j)
    · obtain ⟨hcont2, hchb2, q, hq, hqr, hqc, hquniq⟩ :=
        hnew2 j (by omega) hj2
      refine ⟨hcont2, ?_, q, hq, ?_, hqc, hquniq⟩
      · intro c hc
        have := hchb2 c hc
        omega
      · rcases hqr with rfl | ⟨hq1', hq2'⟩
        · exact Or.inl rfl
        · exact Or.inr ⟨by omega, hq2'⟩

/-- Allocating a fresh node with parent `p`, populating its subtree (an
extension pivoted at the fresh node), and then attaching it to `p` is an
extension pivoted at `p`.  This is the shape of each loop iteration of
`parse_nbt` and of `_add_tag`'s callback. -/
theorem ParseExt_alloc (st : Store) (p : Nat) (nd : PNode)
    (hb : BoundedSt st) (hp : p < st.length)
    (hnd_par : nd.parent = some p) (hnd_ch : nd.children = [])
    (hnd_cont : nd.isCont = isContType nd.ttype)
    (st2 : Store) (hinner : ParseExt (st ++ [nd]) st.length st2) :
    ParseExt st p (addChildSt st2 p st.length) := by
  obtain ⟨hlen, hold, ⟨ns, hnid, hns⟩, hnew⟩ := hinner
  rw [List.length_append, List.length_singleton] at hlen
  have hst1len : (st ++ [nd]).length = st.length + 1 := by
    rw [List.length_append, List.length_singleton]
  have hplt2 : p < st2.length := by omega
  have hnid_ne_p : st.length ≠ p := by omega
  -- how st2 relates to st on old nodes
  have hold' : ∀ i, i < st.length → i ≠ p → nodeAt st2 i = nodeAt st i := by
    intro i hi hip
    rw [hold i (by omega) (by omega), nodeAt_append_lt st [nd] i hi]
  have holdp : nodeAt st2 p = nodeAt st p := by
    rw [hold p (by omega) hnid_ne_p.symm, nodeAt_append_lt st [nd] p hp]
  have hnid_node : nodeAt st2 st.length =
      { nd with children := ns } := by
    rw [hnid, nodeAt_append_len, hnd_ch]
    simp
  have hlen3 : (addChildSt st2 p st.length).length = st2.length := by
    simp [addChildSt, updChildren_length]
  have hother3 : ∀ i, i ≠ p →
      nodeAt (addChildSt st2 p st.length) i = nodeAt st2 i := by
    intro i hip
    exact nodeAt_updChildren_ne st2 p _ i hip
  have hp3 : nodeAt (addChildSt st2 p st.length) p =
      { nodeAt st p with
        children := (nodeAt st p).children ++ [st.length] } := by
    rw [addChildSt, nodeAt_updChildren_self st2 p _ hplt2, holdp]
  refine ⟨by omega, ?_, ⟨[st.length], hp3, by simp; omega⟩, ?_⟩
  · intro i hi hip
    rw [hother3 i hip, hold' i hi hip]
  · intro j hj hj3
    rw [hlen3] at hj3
    by_cases hjnid : j = st.length
    · -- the fresh node itself
      subst hjnid
      have hnode3 : nodeAt (addChildSt st2 p st.length) st.length =
          { nd with children := ns } := by
        rw [hother3 _ hnid_ne_p, hnid_node]
      refine ⟨by rw [hnode3]; exact hnd_cont, ?_,
        p, by rw [hnode3]; exact hnd_par, Or.inl rfl, ?_, ?_⟩
      · intro c hc
        rw [hnode3] at hc
        have := hns c hc
        omega
      · rw [hp3]
        simp only [List.count_append]
        have hnotin : (st.length : Nat) ∉ (nodeAt st p).children := by
          intro hmem
          have := hb p hp _ hmem
          omega
        rw [List.count_eq_zero.mpr hnotin]
        simp
      · intro q' hq'p hmem
        by_cases hq'nid : q' = st.length
        · subst hq'nid
          rw [hnode3] at hmem
          have := hns _ hmem
          omega
        · rw [hother3 q' hq'p] at hmem
          by_cases hq'lt : q' < st.length
          · rw [hold' q' hq'lt hq'p] at hmem
            have := hb q' hq'lt _ hmem
            omega
          · by_cases hq'lt2 : q' < st2.length
            · obtain ⟨_, hchb, _⟩ := hnew q' (by omega) hq'lt2
              have := hchb _ hmem
              omega
            · rw [nodeAt_oob st2 q' (by omega), default_children] at hmem
              exact absurd hmem (List.not_mem_nil _)
    · -- a node of the populated subtree
      have hjp : j ≠ p := by omega
      have hnode3 : nodeAt (addChildSt st2 p st.length) j = nodeAt st2 j :=
        hother3 j hjp
      obtain ⟨hcont, hchb, q, hqpar, hqr, hqc, huniq⟩ :=
        hnew j (by omega) hj3
      have hqnp : q ≠ p := by
        rcases hqr with rfl | ⟨hq1, _⟩
        · omega
        · omega
      refine ⟨by rw [hnode3]; exact hcont, ?_,
        q, by rw [hnode3]; exact hqpar, ?_, ?_, ?_⟩
      · intro c hc
        rw [hnode3] at hc
        have := hchb c hc
        omega
      · rcases hqr with rfl | ⟨hq1, hq2⟩
        · exact Or.inr ⟨by omega, by omega⟩
        · exact Or.inr ⟨by omega, by omega⟩
      · rw [hother3 q hqnp]
        exact hqc
      · intro q' hq'q hmem
        by_cases hq'p : q' = p
        · rw [hq'p, hp3] at hmem
          simp only [List.mem_append] at hmem
          rcases hmem with hmem1 | hmem2
          · have := hb p hp _ hmem1
            omega
          · rw [List.mem_singleton] at hmem2
            omega
        · rw [hother3 q' hq'p] at hmem
          exact huniq q' hq'q hmem

mutual
/-- Each successful `parse_nbt` call over mapping entries is an
extension of the store pivoted at the parent node. -/
theorem storeParseEntries_ext : ∀ (es : NEntries) (p : Nat) (st st' : Store),
    p < st.length → BoundedSt st → storeParseEntries es p st = some st' →
    ParseExt st p st'
  | .nil, p, st, st', _, _, h => by
    simp only [storeParseEntries, Option.some.injEq] at h
    subst h
    exact ParseExt_refl st p
  | .cons k v rest, p, st, st', hp, hb, h => by
    cases v with
    | compound es2 =>
      simp only [storeParseEntries] at h
      cases hin : storeParseEntries es2 st.length
          (st ++ [⟨some p, k, .compound, true, none, []⟩]) with
      | none =>
        simp only [hin] at h
        exact Option.noConfusion h
      | some st2 =>
        simp only [hin] at h
        have hb1 : BoundedSt
            (st ++ [(⟨some p, k, .compound, true, none, []⟩ : PNode)]) :=
          BoundedSt_append st _ hb rfl
        have hlen1 : st.length <
            (st ++ [(⟨some p, k, NTag.compound, true, none, []⟩ : PNode)]).length := by
          simp
        have hinner := storeParseEntries_ext es2 st.length _ st2 hlen1 hb1 hin
        have hstep : ParseExt st p (addChildSt st2 p st.length) :=
          ParseExt_alloc st p _ hb hp rfl rfl rfl st2 hinner
        have hb3 := ParseExt_bounded st p _ hb hstep
        have hp3 : p < (addChildSt st2 p st.length).length :=
          Nat.lt_of_lt_of_le hp hstep.1
        have hrest := storeParseEntries_ext rest p _ st' hp3 hb3 h
        exact ParseExt_trans st _ st' p hp hstep hrest
    | list its =>
      simp only [storeParseEntries] at h
      cases hin : storeParseItems its st.length
          (st ++ [⟨some p, k, .list, true, none, []⟩]) with
      | none =>
        simp only [hin] at h
        exact Option.noConfusion h
      | some st2 =>
        simp only [hin] at h
        have hb1 : BoundedSt
            (st ++ [(⟨some p, k, .list, true, none, []⟩ : PNode)]) :=
          BoundedSt_append st _ hb rfl
        have hlen1 : st.length <
            (st ++ [(⟨some p, k, NTag.list, true, none, []⟩ : PNode)]).length := by
          simp
        have hinner := storeParseItems_ext its st.length _ st2 hlen1 hb1 hin
        have hstep : ParseExt st p (addChildSt st2 p st.length) :=
          ParseExt_alloc st p _ hb hp rfl rfl rfl st2 hinner
        have hb3 := ParseExt_bounded st p _ hb hstep
        have hp3 : p < (addChildSt st2 p st.length).length :=
          Nat.lt_of_lt_of_le hp hstep.1
        have hrest := storeParseEntries_ext rest p _ st' hp3 hb3 h
        exact ParseExt_trans st _ st' p hp hstep hrest
    | value t pv =>
      simp only [storeParseEntries] at h
      have hstep : ParseExt st p
          (addChildSt (st ++ [⟨some p, k, .v t, false, some pv, []⟩]) p
            st.length) :=
        ParseExt_alloc st p _ hb hp rfl rfl rfl _ (ParseExt_refl _ _)
      have hb3 := ParseExt_bounded st p _ hb hstep
      have hp3 := Nat.lt_of_lt_of_le hp hstep.1
      have hrest := storeParseEntries_ext rest p _ st' hp3 hb3 h
      exact ParseExt_trans st _ st' p hp hstep hrest

/-- Each successful item loop of `parse_nbt` over sequence items is an
extension of the store pivoted at the parent node. -/
theorem storeParseItems_ext : ∀ (its : NItems) (p : Nat) (st st' : Store),
    p < st.length → BoundedSt st → storeParseItems its p st = some st' →
    ParseExt st p st'
  | .nil, p, st, st', _, _, h => by
    simp only [storeParseItems, Option.some.injEq] at h
    subst h
    exact ParseExt_refl st p
  | .cons c rest, p, st, st', hp, hb, h => by
    cases c with
    | compound es2 =>
      simp only [storeParseItems] at h
      cases hin : storeParseEntries es2 st.length
          (st ++ [⟨some p, "", .compound, true, none, []⟩]) with
      | none =>
        simp only [hin] at h
        exact Option.noConfusion h
      | some st2 =>
        simp only [hin] at h
        have hb1 : BoundedSt
            (st ++ [(⟨some p, "", .compound, true, none, []⟩ : PNode)]) :=
          BoundedSt_append st _ hb rfl
        have hlen1 : st.length <
            (st ++ [(⟨some p, "", NTag.compound, true, none, []⟩ : PNode)]).length := by
          simp
        have hinner := storeParseEntries_ext es2 st.length _ st2 hlen1 hb1 hin
        have hstep : ParseExt st p (addChildSt st2 p st.length) :=
          ParseExt_alloc st p _ hb hp rfl rfl rfl st2 hinner
        have hb3 := ParseExt_bounded st p _ hb hstep
        have hp3 : p < (addChildSt st2 p st.length).length :=
          Nat.lt_of_lt_of_le hp hstep.1
        have hrest := storeParseItems_ext rest p _ st' hp3 hb3 h
        exact ParseExt_trans st _ st' p hp hstep hrest
    | list its2 =>
      simp only [storeParseItems] at h
      exact Option.noConfusion h
    | value t pv =>
      simp only [storeParseItems] at h
      have hstep : ParseExt st p
          (addChildSt (st ++ [⟨some p, "", .v t, false, some pv, []⟩]) p
            st.length) :=
        ParseExt_alloc st p _ hb hp rfl rfl rfl _ (ParseExt_refl _ _)
      have hb3 := ParseExt_bounded st p _ hb hstep
      have hp3 := Nat.lt_of_lt_of_le hp hstep.1
      have hrest := storeParseItems_ext rest p _ st' hp3 hb3 h
      exact ParseExt_trans st _ st' p hp hstep hrest
end

/-- In a bounded store, everything reachable from an in-range root is in
range. -/
theorem reach_range (st : Store) (hb : BoundedSt st) (r : Nat)
    (hr : r < st.length) : ∀ i, Reach st r i → i < st.length := by
  intro i h
  induction h with
  | refl => exact hr
  | step _ hc ih => exact hb _ ih _ hc

/-- Parsing a document into a fresh root yields a consistent bounded
object graph. -/
theorem parse_consistent (es : NEntries) (st : Store)
    (h : storeParseEntries es 0 [rootNode] = some st) :
    consistentSt st 0 ∧ BoundedSt st := by
  have hb0 : BoundedSt [rootNode] := by
    intro i hi c hc
    rw [List.length_singleton] at hi
    have hieq : i = 0 := by omega
    subst hieq
    have : nodeAt [rootNode] 0 = rootNode := rfl
    rw [this] at hc
    exact absurd hc (List.not_mem_nil c)
  have hroot_len : (0 : Nat) < ([rootNode] : Store).length := by simp
  have hext := storeParseEntries_ext es 0 [rootNode] st hroot_len hb0 h
  have hb := ParseExt_bounded _ _ _ hb0 hext
  obtain ⟨hlen, hold, ⟨ns, hroot, hns⟩, hnew⟩ := hext
  rw [List.length_singleton] at hlen hnew hns
  refine ⟨?_, hb⟩
  intro i hreach
  have hrange : i < st.length := reach_range st hb 0 (by omega) i hreach
  by_cases hi0 : i = 0
  · subst hi0
    refine ⟨?_, fun h0 => absurd rfl h0⟩
    rw [hroot]
    rfl
  · obtain ⟨hcont, _, q, hqpar, _, hqc, huniq⟩ := hnew i (by omega) hrange
    exact ⟨hcont, fun _ => ⟨q, hqpar, hqc, fun q' _ hne => huniq q' hne⟩⟩

/-- Reachability in the store after `_add_tag`: everything reachable was
already reachable, except possibly the fresh node when its parent is. -/
theorem reach_addTag (st : Store) (r p : Nat) (nm : String) (v : Prim)
    (t : NTag) (hb : BoundedSt st) (hr : r < st.length)
    (hp : p < st.length) :
    ∀ x, Reach (addTagOp st p nm v t) r x →
      Reach st r x ∨ (x = st.length ∧ Reach st r p) := by
  have hnode_p : nodeAt (addTagOp st p nm v t) p =
      { nodeAt st p with
        children := (nodeAt st p).children ++ [st.length] } := by
    rw [addTagOp, addChildSt, nodeAt_updChildren_self _ p _
        (by rw [List.length_append, List.length_singleton]; omega),
      nodeAt_append_lt st _ p hp]
  have hnode_nid : nodeAt (addTagOp st p nm v t) st.length =
      newTagNode p nm v t := by
    rw [addTagOp, addChildSt, nodeAt_updChildren_ne _ p _ _ (by omega),
      nodeAt_append_len]
  have hnode_old : ∀ i, i < st.length → i ≠ p →
      nodeAt (addTagOp st p nm v t) i = nodeAt st i := by
    intro i hi hip
    rw [addTagOp, addChildSt, nodeAt_updChildren_ne _ p _ _ hip,
      nodeAt_append_lt st _ i hi]
  intro x h
  induction h with
  | refl => exact Or.inl Reach.refl
  | @step j c _ hc ih =>
    rcases ih with hjst | ⟨rfl, _⟩
    · have hjrange : j < st.length := reach_range st hb r hr j hjst
      by_cases hjp : j = p
      · rw [hjp, hnode_p] at hc
        simp only [List.mem_append, List.mem_singleton] at hc
        rcases hc with hc1 | rfl
        · exact Or.inl (Reach.step hjst (hjp ▸ hc1))
        · exact Or.inr ⟨rfl, hjp ▸ hjst⟩
      · rw [hnode_old j hjrange hjp] at hc
        exact Or.inl (Reach.step hjst hc)
    · rw [hnode_nid, newTagNode_children] at hc
      exact absurd hc (List.not_mem_nil c)

/-- `_add_tag` (new node with its parent assigned, then `add_child` on
the parent) preserves consistency and boundedness. -/
theorem addTag_preserves (st : Store) (r p : Nat) (nm : String) (v : Prim)
    (t : NTag) (hcons : consistentSt st r) (hb : BoundedSt st)
    (hr : r < st.length) (hp : p < st.length) :
    consistentSt (addTagOp st p nm v t) r ∧
    BoundedSt (addTagOp st p nm v t) := by
  have hlen' : (addTagOp st p nm v t).length = st.length + 1 := by
    rw [addTagOp, addChildSt, updChildren_length, List.length_append,
      List.length_singleton]
  have hnode_p : nodeAt (addTagOp st p nm v t) p =
      { nodeAt st p with
        children := (nodeAt st p).children ++ [st.length] } := by
    rw [addTagOp, addChildSt, nodeAt_updChildren_self _ p _
        (by rw [List.length_append, List.length_singleton]; omega),
      nodeAt_append_lt st _ p hp]
  have hnode_nid : nodeAt (addTagOp st p nm v t) st.length =
      newTagNode p nm v t := by
    rw [addTagOp, addChildSt, nodeAt_updChildren_ne _ p _ _ (by omega),
      nodeAt_append_len]
  have hnode_old : ∀ i, i < st.length → i ≠ p →
      nodeAt (addTagOp st p nm v t) i = nodeAt st i := by
    intro i hi hip
    rw [addTagOp, addChildSt, nodeAt_updChildren_ne _ p _ _ hip,
      nodeAt_append_lt st _ i hi]
  constructor
  · intro x hx
    rcases reach_addTag st r p nm v t hb hr hp x hx with hxst | ⟨rfl, hpre⟩
    · have hxr : x < st.length := reach_range st hb r hr x hxst
      obtain ⟨hcont, hrest⟩ := hcons x hxst
      constructor
      · by_cases hxp : x = p
        · rw [hxp, hnode_p]
          rw [hxp] at hcont
          exact hcont
        · rw [hnode_old x hxr hxp]
          exact hcont
      · intro hxnr
        obtain ⟨p0, hpar0, hcount0, huniq0⟩ := hrest hxnr
        have hp0r : p0 < st.length := count_one_in_range st p0 x hcount0
        refine ⟨p0, ?_, ?_, ?_⟩
        · by_cases hxp : x = p
          · rw [hxp, hnode_p]
            rw [hxp] at hpar0
            exact hpar0
          · rw [hnode_old x hxr hxp]
            exact hpar0
        · by_cases hp0p : p0 = p
          · rw [hp0p, hnode_p]
            simp only [List.count_append]
            have h0 : List.count x [List.length st] = 0 :=
              List.count_eq_zero.mpr (by simp; omega)
            rw [h0]
            rw [hp0p] at hcount0
            omega
          · rw [hnode_old p0 hp0r hp0p]
            exact hcount0
        · intro q hq hqp0
          rcases reach_addTag st r p nm v t hb hr hp q hq with hqst | ⟨rfl, _⟩
          · have hqr : q < st.length := reach_range st hb r hr q hqst
            by_cases hqp : q = p
            · rw [hqp, hnode_p]
              simp only [List.mem_append, List.mem_singleton]
              intro hmem
              rcases hmem with hmem1 | rfl
              · exact huniq0 q hqst hqp0 (hqp ▸ hmem1)
              · omega
            · rw [hnode_old q hqr hqp]
              exact huniq0 q hqst hqp0
          · rw [hnode_nid, newTagNode_children]
            exact List.not_mem_nil x
    · constructor
      · rw [hnode_nid]
        exact newTagNode_wf p nm v t
      · intro _
        refine ⟨p, ?_, ?_, ?_⟩
        · rw [hnode_nid]
          exact newTagNode_parent p nm v t
        · rw [hnode_p]
          simp only [List.count_append]
          have hnotin : (st.length : Nat) ∉ (nodeAt st p).children := by
            intro hmem
            have := hb p hp _ hmem
            omega
          have h1 : List.count (List.length st) [List.length st] = 1 := by
            simp
          rw [List.count_eq_zero.mpr hnotin, h1]
        · intro q hq hqp
          rcases reach_addTag st r p nm v t hb hr hp q hq with hqst | ⟨rfl, _⟩
          · have hqr : q < st.length := reach_range st hb r hr q hqst
            rw [hnode_old q hqr hqp]
            intro hmem
            have := hb q hqr _ hmem
            omega
          · rw [hnode_nid, newTagNode_children]
            exact List.not_mem_nil st.length
  · intro i hi c hc
    rw [hlen'] at hi ⊢
    by_cases hinid : i = st.length
    · rw [hinid, hnode_nid, newTagNode_children] at hc
      exact absurd hc (List.not_mem_nil c)
    · have hilt : i < st.length := by omega
      by_cases hip : i = p
      · rw [hip, hnode_p] at hc
        simp only [List.mem_append, List.mem_singleton] at hc
        rcases hc with hc1 | rfl
        · have := hb p hp c hc1
          omega
        · omega
      · rw [hnode_old i hilt hip] at hc
        have := hb i hilt c hc
        omega

/-- `remove_child` only shrinks children lists. -/
theorem children_removeOp_subset (st : Store) (i : Nat) :
    ∀ j, (nodeAt (removeOp st i) j).children ⊆ (nodeAt st j).children := by
  intro j
  unfold removeOp
  cases hpar : (nodeAt st i).parent with
  | none => exact fun c hc => hc
  | some p =>
    show (nodeAt (updChildren st p fun l => l.erase i) j).children ⊆
      (nodeAt st j).children
    by_cases hjp : j = p
    · by_cases hplt : p < st.length
      · rw [hjp, nodeAt_updChildren_self st p _ hplt]
        exact fun c hc => List.erase_subset _ _ hc
      · rw [updChildren_oob st p _ (Nat.le_of_not_lt hplt)]
        exact fun c hc => hc
    · rw [nodeAt_updChildren_ne st p _ j hjp]
      exact fun c hc => hc

/-- Reachability after `remove_child` implies reachability before. -/
theorem reach_removeOp_sub (st : Store) (r i : Nat) :
    ∀ x, Reach (removeOp st i) r x → Reach st r x := by
  intro x h
  induction h with
  | refl => exact Reach.refl
  | @step j c _ hc ih =>
    exact Reach.step ih (children_removeOp_subset st i j hc)

/-- `_delete_tag` via `ParsedNBT.remove` preserves consistency: the
removed node becomes unreachable and every other reachable node keeps
its parent and its single membership in that parent's children. -/
theorem remove_preserves (st : Store) (r i : Nat)
    (hcons : consistentSt st r) : consistentSt (removeOp st i) r := by
  cases hpar : (nodeAt st i).parent with
  | none =>
    have hid : removeOp st i = st := by
      unfold removeOp
      rw [hpar]
    rw [hid]
    exact hcons
  | some p =>
    have hst' : removeOp st i = updChildren st p (fun l => l.erase i) := by
      unfold removeOp
      rw [hpar]
    have hi_unreach : i ≠ r → ¬ Reach (removeOp st i) r i := by
      intro hir hreach'
      cases hreach' with
      | refl => exact hir rfl
      | @step j _ hj hc =>
        have hjst := reach_removeOp_sub st r i j hj
        have hc_st : i ∈ (nodeAt st j).children :=
          children_removeOp_subset st i j hc
        have hreach_st : Reach st r i := Reach.step hjst hc_st
        obtain ⟨p0, hpar0, hcount0, huniq0⟩ := (hcons i hreach_st).2 hir
        have hpp : p0 = p := by
          rw [hpar] at hpar0
          exact (Option.some.inj hpar0).symm
        rw [hpp] at hcount0 huniq0
        by_cases hjp : j = p
        · have hplt : p < st.length := count_one_in_range st p i hcount0
          have hch : (nodeAt (removeOp st i) p).children =
              (nodeAt st p).children.erase i := by
            rw [hst', nodeAt_updChildren_self st p _ hplt]
          rw [hjp, hch] at hc
          have hcz : ((nodeAt st p).children.erase i).count i = 0 := by
            rw [List.count_erase_self]
            omega
          exact (List.count_eq_zero.mp hcz) hc
        · exact huniq0 j hjst hjp hc_st
    intro x hx'
    have hxst := reach_removeOp_sub st r i x hx'
    have hfields := nodeAt_updChildren_fields st p (fun l => l.erase i) x
    obtain ⟨hcont, hrest⟩ := hcons x hxst
    constructor
    · rw [hst', hfields.2.2.2.1, hfields.2.2.1]
      exact hcont
    · intro hxr
      obtain ⟨p0, hpar0, hcount0, huniq0⟩ := hrest hxr
      have hxi : x ≠ i := by
        intro hxeq
        rw [hxeq] at hx'
        exact hi_unreach (hxeq ▸ hxr) hx'
      refine ⟨p0, ?_, ?_, ?_⟩
      · rw [hst', hfields.1]
        exact hpar0
      · by_cases hp0p : p0 = p
        · by_cases hplt : p0 < st.length
          · rw [hst', hp0p, nodeAt_updChildren_self st p _ (hp0p ▸ hplt)]
            have : ((nodeAt st p).children.erase i).count x =
                (nodeAt st p).children.count x :=
              List.count_erase_of_ne hxi _
            rw [this, ← hp0p]
            exact hcount0
          · rw [hst', updChildren_oob st p _ (by omega)]
            exact hcount0
        · rw [hst', nodeAt_updChildren_ne st p _ p0 hp0p]
          exact hcount0
      · intro q hq hqp0
        have hqst := reach_removeOp_sub st r i q hq
        intro hmem
        exact huniq0 q hqst hqp0 (children_removeOp_subset st i q hmem)

/-- Claim C9: after `parse_nbt(d, root)` into a fresh non-None root
container, every node reachable from the root other than the root has a
parent whose children list contains it exactly once, no other reachable
node lists it, and a node is a `ParsedNBTContainer` exactly when its tag
type is a mapping or sequence type; `_add_tag` (add_child paired with
the parent assignment) and `_delete_tag` (remove via remove_child)
preserve this consistency. -/
theorem c9_parsed_tree_consistency :
    (∀ (es : NEntries) (st : Store),
      storeParseEntries es 0 [rootNode] = some st →
      consistentSt st 0 ∧ BoundedSt st) ∧
    (∀ (st : Store) (r p : Nat) (nm : String) (v : Prim) (t : NTag),
      consistentSt st r → BoundedSt st → r < st.length → p < st.length →
      consistentSt (addTagOp st p nm v t) r ∧
      BoundedSt (addTagOp st p nm v t)) ∧
    (∀ (st : Store) (r i : Nat),
      consistentSt st r → consistentSt (removeOp st i) r) :=
  ⟨parse_consistent, addTag_preserves, remove_preserves⟩

/-- Witness for claim C9: a two-entry document is parsed to a consistent
bounded store, and adding a fresh tag under the root and deleting node 1
preserve consistency. -/
theorem c9_parsed_tree_consistency_witness :
    (consistentSt
        ((storeParseEntries
            (.cons "a" (.value .byte (.int 1))
              (.cons "b" (.compound .nil) .nil)) 0 [rootNode]).getD []) 0 ∧
      BoundedSt
        ((storeParseEntries
            (.cons "a" (.value .byte (.int 1))
              (.cons "b" (.compound .nil) .nil)) 0 [rootNode]).getD [])) ∧
    consistentSt
      (addTagOp
        ((storeParseEntries
            (.cons "a" (.value .byte (.int 1))
              (.cons "b" (.compound .nil) .nil)) 0 [rootNode]).getD [])
        0 "c" (.int 7) (.v .short)) 0 ∧
    consistentSt
      (removeOp
        ((storeParseEntries
            (.cons "a" (.value .byte (.int 1))
              (.cons "b" (.compound .nil) .nil)) 0 [rootNode]).getD [])
        1) 0 :=
  have h1 := c9_parsed_tree_consistency.1
    (.cons "a" (.value .byte (.int 1)) (.cons "b" (.compound .nil) .nil))
    ((storeParseEntries
        (.cons "a" (.value .byte (.int 1))
          (.cons "b" (.compound .nil) .nil)) 0 [rootNode]).getD [])
    (by rfl)
  ⟨h1,
   (c9_parsed_tree_consistency.2.1 _ 0 0 "c" (.int 7) (.v .short)
      h1.1 h1.2 (by decide) (by decide)).1,
   c9_parsed_tree_consistency.2.2 _ 0 1 h1.1⟩

end Amulet
